import Mathlib

/-!
Verification of the `uni-schedule` core (interval index `Lapper` and
`ScheduleManager`) against its natural-language specification.

The Rust sources `src/uni-schedule-core/src/schedule/lapper.rs` and
`src/uni-schedule-core/src/schedule/manager.rs` are shallowly embedded:
`DateTime<Utc>` becomes `Int`, `Uuid` (schedule ids) becomes `Nat`,
`BTreeSet<Interval>` becomes a strictly sorted `List Interval`, and the
augmented AVL tree of `Node`s becomes the inductive type `NTree`.
-/

namespace USched

/-- Mirrors `Interval` (lapper.rs): a half-open time interval `[start, stop)`
carrying a schedule id `val`. Times are embedded as `Int`, ids as `Nat`. -/
structure Interval where
  start : Int
  stop : Int
  val : Nat
deriving DecidableEq, Repr

/-- Mirrors the derived `Ord for Interval` (field order: start, stop, val). -/
def Interval.cmp (a b : Interval) : Ordering :=
  if a.start < b.start then .lt else if b.start < a.start then .gt
  else if a.stop < b.stop then .lt else if b.stop < a.stop then .gt
  else if a.val < b.val then .lt else if b.val < a.val then .gt else .eq

/-- The strict lexicographic order on (start, stop, val); this is what the
derived `<` of `Interval` decides. -/
def Interval.ltP (a b : Interval) : Prop :=
  a.start < b.start ∨ (a.start = b.start ∧
    (a.stop < b.stop ∨ (a.stop = b.stop ∧ a.val < b.val)))

instance (a b : Interval) : Decidable (Interval.ltP a b) := by
  unfold Interval.ltP
  infer_instance

/-- Mirrors the derived `<` on `Interval` (lexicographic on (start, stop, val)). -/
def Interval.blt (a b : Interval) : Bool :=
  decide (Interval.ltP a b)

/-- Mirrors `Interval::overlap` (lapper.rs): `self.start < stop && self.stop > start`. -/
def Interval.overlap (iv : Interval) (start stop : Int) : Bool :=
  iv.start < stop && iv.stop > start

theorem Interval.blt_iff (a b : Interval) : a.blt b = true ↔ Interval.ltP a b := by
  simp [Interval.blt]

theorem Interval.cmp_eq_iff (a b : Interval) : a.cmp b = .eq ↔ a = b := by
  obtain ⟨s, e, v⟩ := a
  obtain ⟨s', e', v'⟩ := b
  simp only [Interval.cmp, Interval.mk.injEq]
  split_ifs <;> simp <;> omega

theorem Interval.cmp_lt_iff (a b : Interval) : a.cmp b = .lt ↔ a.blt b = true := by
  obtain ⟨s, e, v⟩ := a
  obtain ⟨s', e', v'⟩ := b
  rw [Interval.blt_iff]
  simp only [Interval.cmp, Interval.ltP]
  split_ifs <;> simp <;> omega

theorem Interval.cmp_gt_iff (a b : Interval) : a.cmp b = .gt ↔ b.blt a = true := by
  obtain ⟨s, e, v⟩ := a
  obtain ⟨s', e', v'⟩ := b
  rw [Interval.blt_iff]
  simp only [Interval.cmp, Interval.ltP]
  split_ifs <;> simp <;> omega

theorem Interval.blt_irrefl (a : Interval) : a.blt a = false := by
  obtain ⟨s, e, v⟩ := a
  simp [Interval.blt, Interval.ltP]

theorem Interval.blt_asymm {a b : Interval} (h : a.blt b = true) : b.blt a = false := by
  rw [Interval.blt_iff] at h
  unfold Interval.ltP at h
  simp only [Interval.blt, decide_eq_false_iff_not, Interval.ltP]
  omega

theorem Interval.blt_trans {a b c : Interval} (h1 : a.blt b = true) (h2 : b.blt c = true) :
    a.blt c = true := by
  rw [Interval.blt_iff] at h1 h2 ⊢
  unfold Interval.ltP at h1 h2 ⊢
  omega

theorem Interval.blt_total (a b : Interval) :
    a.blt b = true ∨ a = b ∨ b.blt a = true := by
  obtain ⟨s, e, v⟩ := a
  obtain ⟨s', e', v'⟩ := b
  rw [Interval.blt_iff, Interval.blt_iff]
  simp only [Interval.ltP, Interval.mk.injEq]
  omega

/-!
### The augmented BST (`Node` in lapper.rs)

`Option<Box<Node>>` is embedded as `NTree` with a `nil` constructor. Each
node stores its interval, the `max` augmentation and the `height` field
exactly as the Rust struct does.
-/

/-- Mirrors `Node` / `Option<Box<Node>>` (lapper.rs). -/
inductive NTree where
  | nil : NTree
  | node (iv : Interval) (mx : Int) (h : Int) (l r : NTree) : NTree
deriving DecidableEq, Repr

namespace NTree

/-- Mirrors `Node::height(node: &Option<Box<Node>>)`: the stored height, 0 for `None`. -/
def heightOf : NTree → Int
  | nil => 0
  | node _ _ h _ _ => h

/-- The stored `max` field (never read on `None` by the Rust code). -/
def maxOf : NTree → Int
  | nil => 0
  | node _ mx _ _ _ => mx

/-- Mirrors `Node::update_max`: max of own `stop` and the children's stored `max`. -/
def newMax (iv : Interval) (l r : NTree) : Int :=
  let m := iv.stop
  let m := match l with
    | nil => m
    | node _ lm _ _ _ => if lm > m then lm else m
  match r with
  | nil => m
  | node _ rm _ _ _ => if rm > m then rm else m

/-- Mirrors `Node::update_height`: `1 + max(height(left), height(right))`. -/
def newHeight (l r : NTree) : Int :=
  1 + max l.heightOf r.heightOf

/-- A node whose `height` and `max` have just been recomputed from its children
(the `update_height(); update_max()` sequence in the Rust code). -/
def withHM (iv : Interval) (l r : NTree) : NTree :=
  node iv (newMax iv l r) (newHeight l r) l r

/-- Mirrors `Node::rotate_right`. The `nil`-left case corresponds to the Rust
`expect` panic, which is unreachable at every call site; the model returns the
tree unchanged there. -/
def rotateRight : NTree → NTree
  | node iv _ _ (node liv _ _ ll lr) r => withHM liv ll (withHM iv lr r)
  | t => t

/-- Mirrors `Node::rotate_left`, symmetric to `rotateRight`. -/
def rotateLeft : NTree → NTree
  | node iv _ _ l (node riv _ _ rl rr) => withHM riv (withHM iv l rl) rr
  | t => t

/-- The left-heavy preprocessing in `Node::rebalance`: rotate the left child
left when its right side is taller (first half of a double rotation). The
`nil` case mirrors the unreachable Rust `expect`. -/
def rebalPreL : NTree → NTree
  | nil => nil
  | node liv lm lh ll lr =>
    if lr.heightOf > ll.heightOf then rotateLeft (node liv lm lh ll lr)
    else node liv lm lh ll lr

/-- The right-heavy preprocessing in `Node::rebalance`, symmetric to
`rebalPreL`. -/
def rebalPreR : NTree → NTree
  | nil => nil
  | node riv rm rh rl rr =>
    if rl.heightOf > rr.heightOf then rotateRight (node riv rm rh rl rr)
    else node riv rm rh rl rr

/-- Mirrors `Node::rebalance`: recompute height/max, then rotate according to
the balance factor (double rotations are a child rotation followed by a
rotation of the current node). -/
def rebalance : NTree → NTree
  | nil => nil
  | node iv _ _ l r =>
    if l.heightOf - r.heightOf > 1 then rotateRight (withHM iv (rebalPreL l) r)
    else if l.heightOf - r.heightOf < -1 then rotateLeft (withHM iv l (rebalPreR r))
    else withHM iv l r

/-- Mirrors `Node::new(iv)`: a leaf with `max = iv.stop` and `height = 1`. -/
def leaf (iv : Interval) : NTree :=
  node iv iv.stop 1 nil nil

/-- Mirrors `Node::insert`: `elem < self.iv` goes left, everything else
(including an equal element) goes right; the result is rebalanced. The `nil`
case is the `None`-child (and `None`-root) branch creating `Node::new(elem)`. -/
def insert : NTree → Interval → NTree
  | nil, e => leaf e
  | node iv mx h l r, e =>
    if e.blt iv then rebalance (node iv mx h (l.insert e) r)
    else rebalance (node iv mx h l (r.insert e))

/-- Mirrors `Node::take_min`: extract the leftmost interval, updating
height/max along the unwinding path. The `nil` case is unreachable (the Rust
function consumes a `Box<Node>`). -/
def takeMin : NTree → Interval × NTree
  | nil => (⟨0, 0, 0⟩, nil)
  | node iv _ _ nil r => (iv, r)
  | node iv _ _ (node liv lm lh ll lr) r =>
    ((takeMin (node liv lm lh ll lr)).1,
      withHM iv (takeMin (node liv lm lh ll lr)).2 r)

/-- Mirrors `Node::remove`. The Rust `Less`/`Greater` arms first match on the
child being `Some`; the `None`-child arm returns `(self, false)`, which
coincides with recursing into the `nil` child (that returns `(nil, false)`,
leaving the node unchanged with the flag false), so the model recurses
uniformly. -/
def remove : NTree → Interval → NTree × Bool
  | nil, _ => (nil, false)
  | node iv mx h l r, e =>
    match e.cmp iv with
    | .lt =>
      if (l.remove e).2 then (rebalance (node iv mx h (l.remove e).1 r), true)
      else (node iv mx h (l.remove e).1 r, false)
    | .gt =>
      if (r.remove e).2 then (rebalance (node iv mx h l (r.remove e).1), true)
      else (node iv mx h l (r.remove e).1, false)
    | .eq =>
      match l, r with
      | nil, nil => (nil, true)
      | node liv lm lh ll lr, nil => (node liv lm lh ll lr, true)
      | nil, node riv rm rh rl rr => (node riv rm rh rl rr, true)
      | node liv lm lh ll lr, node riv rm rh rl rr =>
        (rebalance (node (takeMin (node riv rm rh rl rr)).1 mx h
          (node liv lm lh ll lr) (takeMin (node riv rm rh rl rr)).2), true)

/-- The intervals yielded by `OverlapIter` for the query `[qs, qe)`, in
yield order. The iterator performs a full in-order traversal: all three
checks in `OverlapIter::next` end in `continue` (they skip only the current
node, never a subtree and never the rest of the traversal), so a node yields
iff `!(max < qs) && !(iv.start >= qe) && iv.overlap(qs, qe)`. -/
def findList : NTree → Int → Int → List Interval
  | nil, _, _ => []
  | node iv mx _ l r, qs, qe =>
    l.findList qs qe ++
      (if mx < qs then [] else if iv.start ≥ qe then []
       else if iv.overlap qs qe then [iv] else []) ++
      r.findList qs qe

/-- In-order traversal of the tree. -/
def inorder : NTree → List Interval
  | nil => []
  | node iv _ _ l r => l.inorder ++ iv :: r.inorder

/-- Every node's stored `max` is at least its own interval's `stop`. This is
the part of the `max`-augmentation invariant that `OverlapIter`'s per-node
check relies on. -/
def maxOK : NTree → Bool
  | nil => true
  | node iv mx _ l r => (iv.stop ≤ mx) && l.maxOK && r.maxOK

end NTree

/-!
### The `Lapper` (lapper.rs)

The `BTreeSet<Interval>` is embedded as a strictly sorted duplicate-free
`List Interval`; `BTreeSet::insert` and `BTreeSet::remove` become
`setInsert` and `setRemove`.
-/

/-- `BTreeSet::insert` on the sorted-list model: insert in order, a no-op if
an equal element is present. -/
def setInsert : List Interval → Interval → List Interval
  | [], e => [e]
  | x :: xs, e =>
    if e.blt x then e :: x :: xs
    else if e = x then x :: xs
    else x :: setInsert xs e

/-- `BTreeSet::remove` on the sorted-list model: drop the element if present. -/
def setRemove : List Interval → Interval → List Interval
  | [], _ => []
  | x :: xs, e => if x = e then xs else x :: setRemove xs e

/-- Mirrors `Lapper` (lapper.rs): the sorted interval set plus the augmented
BST root. -/
structure Lapper where
  intervals : List Interval
  root : NTree
deriving DecidableEq, Repr

/-- `Lapper::new(BTreeSet::new())`: the empty index (the only constructor the
manager uses). -/
def Lapper.empty : Lapper := ⟨[], .nil⟩

/-- Mirrors `Lapper::insert`: insert into the set and into the AVL tree. -/
def Lapper.insert (L : Lapper) (e : Interval) : Lapper :=
  { intervals := setInsert L.intervals e, root := L.root.insert e }

/-- Mirrors `Lapper::remove`: remove from the tree; if a node was removed,
also remove the element from the set. Returns the removal flag. -/
def Lapper.remove (L : Lapper) (e : Interval) : Lapper × Bool :=
  if (L.root.remove e).2 then
    ({ intervals := setRemove L.intervals e, root := (L.root.remove e).1 }, true)
  else ({ intervals := L.intervals, root := (L.root.remove e).1 }, false)

/-- Mirrors `Lapper::find`: the intervals yielded by the overlap iterator. -/
def Lapper.find (L : Lapper) (start stop : Int) : List Interval :=
  L.root.findList start stop

/-- Mirrors `Lapper::has_overlap`: `false` for zero-width queries, otherwise
whether `find` yields anything. -/
def Lapper.hasOverlap (L : Lapper) (start stop : Int) : Bool :=
  if start ≥ stop then false
  else !(L.find start stop).isEmpty

/-- Strictly sorted in the `(start, stop, val)` order. -/
def sortedLt (l : List Interval) : Prop :=
  l.Pairwise (fun a b => a.blt b = true)

/-- Well-formedness of a `Lapper`: the tree's in-order traversal is exactly
the sorted set, the set is strictly sorted, and the `max` augmentation is
sound. Every `Lapper` the manager builds without duplicate insertions
satisfies this. -/
def Lapper.WF (L : Lapper) : Prop :=
  L.root.inorder = L.intervals ∧ sortedLt L.intervals ∧ L.root.maxOK = true

instance (L : Lapper) : Decidable L.WF := by
  unfold Lapper.WF sortedLt
  infer_instance

/-!
### List-level lemmas about the sorted-set model
-/

/-- Insertion into a list after all elements not greater than `e`: this is the
in-order effect of `Node::insert` (equal elements are passed, since an equal
element descends into the right subtree). -/
def insR : List Interval → Interval → List Interval
  | [], e => [e]
  | x :: xs, e => if e.blt x then e :: x :: xs else x :: insR xs e

/-- Weakly sorted (non-strict) in the interval order. -/
def sortedW (l : List Interval) : Prop :=
  l.Pairwise (fun a b => b.blt a = false)

theorem sortedLt_sortedW {l : List Interval} (h : sortedLt l) : sortedW l :=
  h.imp (fun hab => Interval.blt_asymm hab)

theorem mem_insR {l : List Interval} {e y : Interval} :
    y ∈ insR l e ↔ y = e ∨ y ∈ l := by
  induction l with
  | nil => simp [insR]
  | cons x xs ih =>
    simp only [insR]
    split_ifs
    · simp [List.mem_cons]
    · simp only [List.mem_cons, ih]
      tauto

theorem length_insR (l : List Interval) (e : Interval) :
    (insR l e).length = l.length + 1 := by
  induction l with
  | nil => rfl
  | cons x xs ih =>
    simp only [insR]
    split_ifs <;> simp [ih]

theorem insR_before {a : List Interval} {y : Interval} (b : List Interval) {e : Interval}
    (h : e.blt y = true) : insR (a ++ y :: b) e = insR a e ++ y :: b := by
  induction a with
  | nil => simp [insR, h]
  | cons x xs ih =>
    simp only [List.cons_append, insR]
    split_ifs <;> simp [ih]

theorem insR_skip {a : List Interval} (b : List Interval) {e : Interval}
    (h : ∀ x ∈ a, e.blt x = false) : insR (a ++ b) e = a ++ insR b e := by
  induction a with
  | nil => rfl
  | cons x xs ih =>
    simp only [List.cons_append, insR]
    rw [h x (by simp)]
    simp only [Bool.false_eq_true, if_false, List.append_eq]
    rw [ih (fun x hx => h x (by simp [hx]))]

theorem sortedW_insR {l : List Interval} {e : Interval} (h : sortedW l) :
    sortedW (insR l e) := by
  induction l with
  | nil => simp [insR, sortedW]
  | cons x xs ih =>
    rw [sortedW, List.pairwise_cons] at h
    obtain ⟨hx, hxs⟩ := h
    simp only [insR]
    split_ifs with he
    · rw [sortedW, List.pairwise_cons]
      refine ⟨?_, ?_⟩
      · intro y hy
        rcases List.mem_cons.mp hy with rfl | hy'
        · exact Interval.blt_asymm he
        · cases hby : y.blt e
          · rfl
          · have : y.blt x = true := Interval.blt_trans hby he
            rw [hx y hy'] at this
            cases this
      · rw [sortedW, List.pairwise_cons] at *
        exact ⟨hx, hxs⟩
    · rw [sortedW, List.pairwise_cons]
      refine ⟨?_, ih hxs⟩
      intro y hy
      rcases mem_insR.mp hy with rfl | hy'
      · simpa using he
      · exact hx y hy'

theorem sortedLt_insR {l : List Interval} {e : Interval} (h : sortedLt l) (hm : e ∉ l) :
    sortedLt (insR l e) := by
  induction l with
  | nil => simp [insR, sortedLt]
  | cons x xs ih =>
    unfold sortedLt at h
    rw [List.pairwise_cons] at h
    obtain ⟨hx, hxs⟩ := h
    have hex : e ≠ x := fun hh => hm (by simp [hh])
    have hexs : e ∉ xs := fun hh => hm (by simp [hh])
    simp only [insR]
    split_ifs with he
    · unfold sortedLt
      rw [List.pairwise_cons]
      refine ⟨?_, ?_⟩
      · intro y hy
        rcases List.mem_cons.mp hy with rfl | hy'
        · exact he
        · exact Interval.blt_trans he (hx y hy')
      · rw [List.pairwise_cons]
        exact ⟨hx, hxs⟩
    · unfold sortedLt
      rw [List.pairwise_cons]
      refine ⟨?_, ih hxs hexs⟩
      intro y hy
      rcases mem_insR.mp hy with rfl | hy'
      · rcases Interval.blt_total x y with hh | hh | hh
        · exact hh
        · exact absurd hh.symm hex
        · exact absurd hh he
      · exact hx y hy'

theorem setInsert_of_mem {l : List Interval} {e : Interval} (h : sortedLt l) (hm : e ∈ l) :
    setInsert l e = l := by
  induction l with
  | nil => cases hm
  | cons x xs ih =>
    rw [sortedLt, List.pairwise_cons] at h
    obtain ⟨hx, hxs⟩ := h
    simp only [setInsert]
    split_ifs with h1 h2
    · exfalso
      rcases List.mem_cons.mp hm with rfl | hm'
      · rw [Interval.blt_irrefl] at h1
        cases h1
      · have := hx e hm'
        rw [Interval.blt_asymm this] at h1
        cases h1
    · rfl
    · rcases List.mem_cons.mp hm with rfl | hm'
      · exact absurd rfl h2
      · rw [ih hxs hm']

theorem setInsert_of_not_mem {l : List Interval} {e : Interval} (hm : e ∉ l) :
    setInsert l e = insR l e := by
  induction l with
  | nil => rfl
  | cons x xs ih =>
    have hex : e ≠ x := fun hh => hm (by simp [hh])
    have hexs : e ∉ xs := fun hh => hm (by simp [hh])
    simp only [setInsert, insR]
    split_ifs with h1
    · rfl
    · rw [ih hexs]

theorem setRemove_of_not_mem {l : List Interval} {e : Interval} (hm : e ∉ l) :
    setRemove l e = l := by
  induction l with
  | nil => rfl
  | cons x xs ih =>
    have hex : x ≠ e := fun hh => hm (by simp [hh])
    have hexs : e ∉ xs := fun hh => hm (by simp [hh])
    simp only [setRemove, if_neg hex]
    rw [ih hexs]

theorem setRemove_append_left {a : List Interval} (b : List Interval) {e : Interval}
    (hm : e ∈ a) : setRemove (a ++ b) e = setRemove a e ++ b := by
  induction a with
  | nil => cases hm
  | cons x xs ih =>
    simp only [List.cons_append, setRemove, List.append_eq]
    split_ifs with h1
    · rfl
    · rcases List.mem_cons.mp hm with rfl | hm'
      · exact absurd rfl h1
      · rw [ih hm']
        rfl

theorem setRemove_append_mid {a : List Interval} (b : List Interval) {e : Interval}
    (hm : e ∉ a) : setRemove (a ++ e :: b) e = a ++ b := by
  induction a with
  | nil => simp [setRemove]
  | cons x xs ih =>
    have hex : x ≠ e := fun hh => hm (by simp [hh])
    have hexs : e ∉ xs := fun hh => hm (by simp [hh])
    simp only [List.cons_append, setRemove, if_neg hex, List.append_eq]
    rw [ih hexs]

theorem setRemove_sublist (l : List Interval) (e : Interval) :
    (setRemove l e).Sublist l := by
  induction l with
  | nil => simp [setRemove]
  | cons x xs ih =>
    simp only [setRemove]
    split_ifs
    · exact List.sublist_cons_self x xs
    · exact ih.cons₂ x

theorem sortedLt_setRemove {l : List Interval} (h : sortedLt l) (e : Interval) :
    sortedLt (setRemove l e) :=
  List.Pairwise.sublist (setRemove_sublist l e) h

/-!
### Tree lemmas: rotations and rebalancing preserve the in-order traversal
and the `max` augmentation.
-/

namespace NTree

theorem inorder_withHM (iv : Interval) (l r : NTree) :
    (withHM iv l r).inorder = l.inorder ++ iv :: r.inorder := rfl

theorem inorder_rotateRight (t : NTree) : (rotateRight t).inorder = t.inorder := by
  match t with
  | nil => rfl
  | node iv mx h nil r => rfl
  | node iv mx h (node liv lm lh ll lr) r =>
    simp [rotateRight, inorder_withHM, inorder]

theorem inorder_rotateLeft (t : NTree) : (rotateLeft t).inorder = t.inorder := by
  match t with
  | nil => rfl
  | node iv mx h l nil => rfl
  | node iv mx h l (node riv rm rh rl rr) =>
    simp [rotateLeft, inorder_withHM, inorder]

theorem inorder_rebalPreL (l : NTree) : (rebalPreL l).inorder = l.inorder := by
  match l with
  | nil => rfl
  | node liv lm lh ll lr =>
    rw [rebalPreL]
    split_ifs
    · exact inorder_rotateLeft _
    · rfl

theorem inorder_rebalPreR (r : NTree) : (rebalPreR r).inorder = r.inorder := by
  match r with
  | nil => rfl
  | node riv rm rh rl rr =>
    rw [rebalPreR]
    split_ifs
    · exact inorder_rotateRight _
    · rfl

theorem inorder_rebalance (iv : Interval) (mx h : Int) (l r : NTree) :
    (rebalance (node iv mx h l r)).inorder = l.inorder ++ iv :: r.inorder := by
  rw [rebalance]
  split_ifs
  · rw [inorder_rotateRight, inorder_withHM, inorder_rebalPreL]
  · rw [inorder_rotateLeft, inorder_withHM, inorder_rebalPreR]
  · rw [inorder_withHM]

theorem stop_le_newMax (iv : Interval) (l r : NTree) : iv.stop ≤ newMax iv l r := by
  match l, r with
  | nil, nil => simp [newMax]
  | nil, node _ rm _ _ _ => simp only [newMax]; split_ifs <;> omega
  | node _ lm _ _ _, nil => simp only [newMax]; split_ifs <;> omega
  | node _ lm _ _ _, node _ rm _ _ _ => simp only [newMax]; split_ifs <;> omega

theorem maxOK_node_iff {iv : Interval} {mx h : Int} {l r : NTree} :
    (node iv mx h l r).maxOK = true ↔
      iv.stop ≤ mx ∧ l.maxOK = true ∧ r.maxOK = true := by
  simp [maxOK, Bool.and_eq_true, decide_eq_true_eq, and_assoc]

theorem maxOK_withHM {iv : Interval} {l r : NTree}
    (hl : l.maxOK = true) (hr : r.maxOK = true) : (withHM iv l r).maxOK = true := by
  rw [withHM, maxOK_node_iff]
  exact ⟨stop_le_newMax iv l r, hl, hr⟩

theorem maxOK_rotateRight {t : NTree} (ht : t.maxOK = true) :
    (rotateRight t).maxOK = true := by
  match t with
  | nil => exact ht
  | node iv mx h nil r => exact ht
  | node iv mx h (node liv lm lh ll lr) r =>
    rw [maxOK_node_iff] at ht
    obtain ⟨h1, h2, h3⟩ := ht
    rw [maxOK_node_iff] at h2
    obtain ⟨h4, h5, h6⟩ := h2
    exact maxOK_withHM h5 (maxOK_withHM h6 h3)

theorem maxOK_rotateLeft {t : NTree} (ht : t.maxOK = true) :
    (rotateLeft t).maxOK = true := by
  match t with
  | nil => exact ht
  | node iv mx h l nil => exact ht
  | node iv mx h l (node riv rm rh rl rr) =>
    rw [maxOK_node_iff] at ht
    obtain ⟨h1, h2, h3⟩ := ht
    rw [maxOK_node_iff] at h3
    obtain ⟨h4, h5, h6⟩ := h3
    exact maxOK_withHM (maxOK_withHM h2 h5) h6

theorem maxOK_rebalPreL {l : NTree} (hl : l.maxOK = true) : (rebalPreL l).maxOK = true := by
  match l with
  | nil => exact hl
  | node liv lm lh ll lr =>
    rw [rebalPreL]
    split_ifs
    · exact maxOK_rotateLeft hl
    · exact hl

theorem maxOK_rebalPreR {r : NTree} (hr : r.maxOK = true) : (rebalPreR r).maxOK = true := by
  match r with
  | nil => exact hr
  | node riv rm rh rl rr =>
    rw [rebalPreR]
    split_ifs
    · exact maxOK_rotateRight hr
    · exact hr

theorem maxOK_rebalance {iv : Interval} {mx h : Int} {l r : NTree}
    (hl : l.maxOK = true) (hr : r.maxOK = true) :
    (rebalance (node iv mx h l r)).maxOK = true := by
  rw [rebalance]
  split_ifs
  · exact maxOK_rotateRight (maxOK_withHM (maxOK_rebalPreL hl) hr)
  · exact maxOK_rotateLeft (maxOK_withHM hl (maxOK_rebalPreR hr))
  · exact maxOK_withHM hl hr

theorem maxOK_insert {t : NTree} (ht : t.maxOK = true) (e : Interval) :
    (t.insert e).maxOK = true := by
  induction t with
  | nil => simp [insert, leaf, maxOK]
  | node iv mx h l r ihl ihr =>
    rw [maxOK_node_iff] at ht
    obtain ⟨h1, h2, h3⟩ := ht
    rw [insert]
    split_ifs
    · exact maxOK_rebalance (ihl h2) h3
    · exact maxOK_rebalance h2 (ihr h3)

theorem maxOK_takeMin {t : NTree} (ht : t.maxOK = true) :
    (takeMin t).2.maxOK = true := by
  induction t with
  | nil => exact rfl
  | node iv mx h l r ihl ihr =>
    rw [maxOK_node_iff] at ht
    obtain ⟨h1, h2, h3⟩ := ht
    match l, ihl, h2 with
    | nil, _, _ => exact h3
    | node liv lm lh ll lr, ihl, h2 =>
      simp only [takeMin]
      exact maxOK_withHM (ihl h2) h3

theorem maxOK_remove {t : NTree} (ht : t.maxOK = true) (e : Interval) :
    ((t.remove e).1).maxOK = true := by
  induction t with
  | nil => exact ht
  | node iv mx h l r ihl ihr =>
    have ht' := ht
    rw [maxOK_node_iff] at ht'
    obtain ⟨h1, h2, h3⟩ := ht'
    cases hcmp : e.cmp iv with
    | lt =>
      simp only [remove, hcmp]
      split_ifs
      · show (rebalance (node iv mx h (l.remove e).1 r)).maxOK = true
        exact maxOK_rebalance (ihl h2) h3
      · show (node iv mx h (l.remove e).1 r).maxOK = true
        rw [maxOK_node_iff]
        exact ⟨h1, ihl h2, h3⟩
    | gt =>
      simp only [remove, hcmp]
      split_ifs
      · show (rebalance (node iv mx h l (r.remove e).1)).maxOK = true
        exact maxOK_rebalance h2 (ihr h3)
      · show (node iv mx h l (r.remove e).1).maxOK = true
        rw [maxOK_node_iff]
        exact ⟨h1, h2, ihr h3⟩
    | eq =>
      match l, h2, r, h3 with
      | nil, _, nil, _ =>
        simp only [remove, hcmp]
        exact rfl
      | node liv lm lh ll lr, h2, nil, _ =>
        simp only [remove, hcmp]
        exact h2
      | nil, _, node riv rm rh rl rr, h3 =>
        simp only [remove, hcmp]
        exact h3
      | node liv lm lh ll lr, h2, node riv rm rh rl rr, h3 =>
        simp only [remove, hcmp]
        exact maxOK_rebalance h2 (maxOK_takeMin h3)

theorem maxOK_insert2 {t : NTree} (ht : t.maxOK = true) (e : Interval) :
    (t.insert e).maxOK = true :=
  maxOK_insert ht e

theorem inorder_insert {t : NTree} (hs : sortedW t.inorder) (e : Interval) :
    (t.insert e).inorder = insR t.inorder e := by
  induction t with
  | nil => rfl
  | node iv mx h l r ihl ihr =>
    simp only [inorder] at hs
    unfold sortedW at hs
    rw [List.pairwise_append] at hs
    obtain ⟨hsl, hsr', hcross⟩ := hs
    rw [List.pairwise_cons] at hsr'
    obtain ⟨hivr, hsr⟩ := hsr'
    simp only [insert, inorder]
    split_ifs with he
    · rw [inorder_rebalance, ihl hsl, insR_before r.inorder he]
    · have he' : e.blt iv = false := by
        cases hb : e.blt iv
        · rfl
        · exact absurd hb he
      have hskip : ∀ x ∈ l.inorder, e.blt x = false := by
        intro x hx
        have hxiv : iv.blt x = false := hcross x hx iv (List.mem_cons_self iv _)
        cases hbx : e.blt x
        · rfl
        · exfalso
          rcases Interval.blt_total iv x with hh | hh | hh
          · rw [hh] at hxiv
            cases hxiv
          · rw [← hh] at hbx
            rw [hbx] at he'
            cases he'
          · have := Interval.blt_trans hbx hh
            rw [this] at he'
            cases he'
      rw [inorder_rebalance, ihr hsr, insR_skip (iv :: r.inorder) hskip]
      simp only [insR, he']
      rw [if_neg]
      simp

theorem takeMin_inorder (iv : Interval) (mx h : Int) (l r : NTree) :
    (node iv mx h l r).inorder
      = (takeMin (node iv mx h l r)).1 :: ((takeMin (node iv mx h l r)).2).inorder := by
  induction l generalizing iv mx h r with
  | nil => simp [takeMin, inorder]
  | node liv lm lh ll lr ihll ihlr =>
    have hstep : (node liv lm lh ll lr).inorder
        = (takeMin (node liv lm lh ll lr)).1
          :: ((takeMin (node liv lm lh ll lr)).2).inorder := ihll liv lm lh lr
    show (node liv lm lh ll lr).inorder ++ iv :: r.inorder = _
    rw [hstep]
    simp only [takeMin, inorder_withHM, List.cons_append]

theorem setRemove_append_skip {a : List Interval} (b : List Interval) {e : Interval}
    (hm : e ∉ a) : setRemove (a ++ b) e = a ++ setRemove b e := by
  induction a with
  | nil => rfl
  | cons x xs ih =>
    have hx : x ≠ e := fun hh => hm (by simp [hh])
    have hxs : e ∉ xs := fun hh => hm (by simp [hh])
    simp only [List.cons_append, setRemove, if_neg hx, List.append_eq]
    rw [ih hxs]

theorem remove_inorder {t : NTree} (hs : sortedLt t.inorder) (e : Interval) :
    ((t.remove e).1).inorder = setRemove t.inorder e
      ∧ ((t.remove e).2 = true ↔ e ∈ t.inorder) := by
  induction t with
  | nil => exact ⟨rfl, by simp [remove, inorder]⟩
  | node iv mx h l r ihl ihr =>
    simp only [inorder] at hs
    unfold sortedLt at hs
    rw [List.pairwise_append] at hs
    obtain ⟨hsl, hsr', hcross⟩ := hs
    rw [List.pairwise_cons] at hsr'
    obtain ⟨hivr, hsr⟩ := hsr'
    have htop : (node iv mx h l r).inorder = l.inorder ++ iv :: r.inorder := rfl
    rw [htop]
    cases hcmp : e.cmp iv with
    | lt =>
      have he : e.blt iv = true := (Interval.cmp_lt_iff e iv).mp hcmp
      have hne : e ≠ iv := by
        intro hh
        rw [hh, Interval.blt_irrefl] at he
        cases he
      have hnr : e ∉ r.inorder := by
        intro hh
        have := hivr e hh
        rw [Interval.blt_asymm this] at he
        cases he
      simp only [remove, hcmp]
      split_ifs with hflag
      · have hmem : e ∈ l.inorder := ((ihl hsl).2).mp hflag
        constructor
        · show (rebalance (node iv mx h (l.remove e).1 r)).inorder = _
          rw [inorder_rebalance, (ihl hsl).1,
            setRemove_append_left (iv :: r.inorder) hmem]
        · exact iff_of_true rfl (List.mem_append.mpr (Or.inl hmem))
      · have hnl : e ∉ l.inorder := fun hh => hflag (((ihl hsl).2).mpr hh)
        have hnfull : e ∉ l.inorder ++ iv :: r.inorder := by
          simp only [List.mem_append, List.mem_cons]
          push_neg
          exact ⟨hnl, hne, hnr⟩
        constructor
        · show (node iv mx h (l.remove e).1 r).inorder = _
          show (l.remove e).1.inorder ++ iv :: r.inorder = _
          rw [(ihl hsl).1, setRemove_of_not_mem hnl, setRemove_of_not_mem hnfull]
        · exact iff_of_false (by simp) hnfull
    | gt =>
      have he : iv.blt e = true := (Interval.cmp_gt_iff e iv).mp hcmp
      have hne : e ≠ iv := by
        intro hh
        rw [hh, Interval.blt_irrefl] at he
        cases he
      have hnl : e ∉ l.inorder := by
        intro hh
        have := hcross e hh iv (List.mem_cons_self iv _)
        rw [Interval.blt_asymm this] at he
        cases he
      simp only [remove, hcmp]
      split_ifs with hflag
      · have hmem : e ∈ r.inorder := ((ihr hsr).2).mp hflag
        constructor
        · show (rebalance (node iv mx h l (r.remove e).1)).inorder = _
          rw [inorder_rebalance, (ihr hsr).1, setRemove_append_skip (iv :: r.inorder) hnl]
          simp only [setRemove, if_neg (Ne.symm hne)]
        · exact iff_of_true rfl
            (List.mem_append.mpr (Or.inr (List.mem_cons_of_mem iv hmem)))
      · have hnr : e ∉ r.inorder := fun hh => hflag (((ihr hsr).2).mpr hh)
        have hnfull : e ∉ l.inorder ++ iv :: r.inorder := by
          simp only [List.mem_append, List.mem_cons]
          push_neg
          exact ⟨hnl, hne, hnr⟩
        constructor
        · show (node iv mx h l (r.remove e).1).inorder = _
          show l.inorder ++ iv :: (r.remove e).1.inorder = _
          rw [(ihr hsr).1, setRemove_of_not_mem hnr, setRemove_of_not_mem hnfull]
        · exact iff_of_false (by simp) hnfull
    | eq =>
      have he : e = iv := (Interval.cmp_eq_iff e iv).mp hcmp
      subst he
      have hnl : e ∉ l.inorder := by
        intro hh
        have := hcross e hh e (List.mem_cons_self e _)
        rw [Interval.blt_irrefl] at this
        cases this
      have hnr : e ∉ r.inorder := by
        intro hh
        have := hivr e hh
        rw [Interval.blt_irrefl] at this
        cases this
      have hmemfull : e ∈ l.inorder ++ e :: r.inorder := by
        simp
      have hmid : setRemove (l.inorder ++ e :: r.inorder) e = l.inorder ++ r.inorder :=
        setRemove_append_mid r.inorder hnl
      rw [hmid]
      match l, hnl, r, hnr with
      | nil, _, nil, _ =>
        exact ⟨by simp [remove, hcmp, inorder], by simp [remove, hcmp]⟩
      | node liv lm lh ll lr, hnl, nil, _ =>
        refine ⟨?_, by simp [remove, hcmp]⟩
        simp only [remove, hcmp]
        show (node liv lm lh ll lr).inorder = _
        simp [inorder]
      | nil, _, node riv rm rh rl rr, hnr =>
        refine ⟨?_, by simp [remove, hcmp]⟩
        simp only [remove, hcmp]
        show (node riv rm rh rl rr).inorder = _
        simp [inorder]
      | node liv lm lh ll lr, hnl, node riv rm rh rl rr, hnr =>
        refine ⟨?_, by simp [remove, hcmp]⟩
        simp only [remove, hcmp]
        show (rebalance (node (takeMin (node riv rm rh rl rr)).1 mx h
          (node liv lm lh ll lr) (takeMin (node riv rm rh rl rr)).2)).inorder = _
        rw [inorder_rebalance]
        rw [show ((takeMin (node riv rm rh rl rr)).1
            :: ((takeMin (node riv rm rh rl rr)).2).inorder)
            = (node riv rm rh rl rr).inorder from (takeMin_inorder riv rm rh rl rr).symm]

theorem findList_eq_filter {t : NTree} (ht : t.maxOK = true) (qs qe : Int) :
    t.findList qs qe = t.inorder.filter (fun iv => iv.overlap qs qe) := by
  induction t with
  | nil => rfl
  | node iv mx h l r ihl ihr =>
    rw [maxOK_node_iff] at ht
    obtain ⟨h1, h2, h3⟩ := ht
    have hmid : (if mx < qs then ([] : List Interval) else if iv.start ≥ qe then []
        else if iv.overlap qs qe then [iv] else [])
        = if iv.overlap qs qe = true then [iv] else [] := by
      by_cases hov : iv.overlap qs qe = true
      · have hov' : iv.start < qe ∧ iv.stop > qs := by
          simpa [Interval.overlap, Bool.and_eq_true, decide_eq_true_eq] using hov
        rw [if_neg (by omega), if_neg (by omega), if_pos hov]
      · rw [Bool.not_eq_true] at hov
        simp only [hov, Bool.false_eq_true, if_false]
        split_ifs <;> rfl
    simp only [findList, ihl h2, ihr h3, hmid]
    have htop : (node iv mx h l r).inorder = l.inorder ++ iv :: r.inorder := rfl
    rw [htop, List.filter_append, List.filter_cons]
    by_cases hov : iv.overlap qs qe = true
    · simp [hov]
    · rw [Bool.not_eq_true] at hov
      simp [hov]

end NTree

/-!
### Lapper-level lemmas
-/

theorem setRemove_insR {l : List Interval} {e : Interval} (hm : e ∉ l) :
    setRemove (insR l e) e = l := by
  induction l with
  | nil => simp [insR, setRemove]
  | cons x xs ih =>
    have hex : x ≠ e := fun hh => hm (by simp [hh])
    have hexs : e ∉ xs := fun hh => hm (by simp [hh])
    simp only [insR]
    split_ifs with h1
    · simp [setRemove]
    · simp only [setRemove, if_neg hex]
      rw [ih hexs]

theorem Lapper.insert_WF {L : Lapper} {e : Interval} (h : L.WF) (hm : e ∉ L.intervals) :
    (L.insert e).WF ∧ (L.insert e).intervals = insR L.intervals e := by
  obtain ⟨hio, hst, hmx⟩ := h
  have hsw : sortedW L.root.inorder := by
    rw [hio]
    exact sortedLt_sortedW hst
  have h1 : (L.insert e).intervals = insR L.intervals e := by
    show setInsert L.intervals e = _
    exact setInsert_of_not_mem hm
  refine ⟨⟨?_, ?_, ?_⟩, h1⟩
  · show (L.root.insert e).inorder = _
    rw [NTree.inorder_insert hsw e, hio, h1]
  · rw [h1]
    exact sortedLt_insR hst hm
  · exact NTree.maxOK_insert hmx e

theorem Lapper.remove_spec {L : Lapper} (h : L.WF) (e : Interval) :
    ((L.remove e).1).WF ∧ (L.remove e).1.intervals = setRemove L.intervals e
      ∧ ((L.remove e).2 = true ↔ e ∈ L.intervals) := by
  obtain ⟨hio, hst, hmx⟩ := h
  have hsi : sortedLt L.root.inorder := by
    rw [hio]
    exact hst
  have hrec := NTree.remove_inorder hsi e
  have hmem' : (L.root.remove e).2 = true ↔ e ∈ L.intervals := by
    rw [hrec.2, hio]
  unfold Lapper.remove
  split_ifs with hfl
  · have hm : e ∈ L.intervals := hmem'.mp hfl
    refine ⟨⟨?_, sortedLt_setRemove hst e, NTree.maxOK_remove hmx e⟩, rfl,
      iff_of_true rfl hm⟩
    show (L.root.remove e).1.inorder = setRemove L.intervals e
    rw [hrec.1, hio]
  · have hnm : e ∉ L.intervals := fun hmem => hfl (hmem'.mpr hmem)
    refine ⟨⟨?_, hst, NTree.maxOK_remove hmx e⟩, ?_, iff_of_false (by simp) hnm⟩
    · show (L.root.remove e).1.inorder = L.intervals
      rw [hrec.1, hio, setRemove_of_not_mem hnm]
    · show L.intervals = setRemove L.intervals e
      rw [setRemove_of_not_mem hnm]

/-- The operations a `Lapper` undergoes: single inserts and removes. -/
inductive LapOp where
  | ins (iv : Interval) : LapOp
  | rem (iv : Interval) : LapOp

/-- Apply one operation (`Lapper::insert` / `Lapper::remove`). -/
def applyOp (L : Lapper) : LapOp → Lapper
  | .ins iv => L.insert iv
  | .rem iv => (L.remove iv).1

/-- Apply a sequence of operations left to right. -/
def applyOps (L : Lapper) (ops : List LapOp) : Lapper :=
  ops.foldl applyOp L

/-- No insert in the sequence duplicates an interval already stored at the
time it executes. -/
def FreshOps : Lapper → List LapOp → Prop
  | _, [] => True
  | L, .ins iv :: rest => iv ∉ L.intervals ∧ FreshOps (L.insert iv) rest
  | L, .rem iv :: rest => FreshOps ((L.remove iv).1) rest

instance freshOpsDec : (L : Lapper) → (ops : List LapOp) → Decidable (FreshOps L ops)
  | _, [] => .isTrue trivial
  | L, .ins iv :: rest =>
    have : Decidable (FreshOps (L.insert iv) rest) := freshOpsDec _ rest
    by unfold FreshOps; infer_instance
  | L, .rem iv :: rest =>
    have : Decidable (FreshOps ((L.remove iv).1) rest) := freshOpsDec _ rest
    by unfold FreshOps; infer_instance

theorem WF_applyOps {L : Lapper} (h : L.WF) :
    ∀ {ops : List LapOp}, FreshOps L ops → (applyOps L ops).WF := by
  intro ops
  induction ops generalizing L with
  | nil =>
    intro _
    exact h
  | cons op rest ih =>
    intro hf
    match op, hf with
    | .ins iv, hf => exact ih ((Lapper.insert_WF h hf.1).1) hf.2
    | .rem iv, hf => exact ih ((Lapper.remove_spec h iv).1) hf

/-- C1: For every well-formed `Lapper` `L` and query `(qs, qe)`,
`Lapper::find` yields exactly the stored intervals with
`iv.start < qe ∧ iv.stop > qs` (the result is the overlap-filter of the
sorted interval set), and it yields them in strictly ascending
`(start, stop, val)` order. -/
theorem C1_find_exact (L : Lapper) (h : L.WF) (qs qe : Int) :
    L.find qs qe = L.intervals.filter (fun iv => iv.overlap qs qe)
      ∧ (∀ iv, iv ∈ L.find qs qe ↔ iv ∈ L.intervals ∧ iv.start < qe ∧ iv.stop > qs)
      ∧ sortedLt (L.find qs qe) := by
  obtain ⟨hio, hst, hmx⟩ := h
  have hfl : L.find qs qe = L.intervals.filter (fun iv => iv.overlap qs qe) := by
    show L.root.findList qs qe = _
    rw [NTree.findList_eq_filter hmx, hio]
  refine ⟨hfl, ?_, ?_⟩
  · intro iv
    rw [hfl, List.mem_filter]
    simp [Interval.overlap, Bool.and_eq_true, decide_eq_true_eq]
  · rw [hfl]
    exact List.Pairwise.filter _ hst

/-- Witness for C1 at a concrete three-interval index. -/
theorem C1_find_exact_witness :
    (((Lapper.empty.insert ⟨0, 5, 1⟩).insert ⟨3, 9, 2⟩).insert ⟨6, 7, 3⟩).WF
      ∧ (((Lapper.empty.insert ⟨0, 5, 1⟩).insert ⟨3, 9, 2⟩).insert ⟨6, 7, 3⟩).find 4 7
          = [⟨0, 5, 1⟩, ⟨3, 9, 2⟩, ⟨6, 7, 3⟩].filter (fun iv => iv.overlap 4 7) :=
  ⟨by decide, (C1_find_exact _ (by decide) 4 7).1⟩

/-- C5, counterexample: inserting an interval equal on all three fields to
one already stored is NOT a no-op on the tree: the sorted set is unchanged
but a duplicate tree node is created, so the tree's in-order traversal and
the sorted-set contents are no longer identical sequences. -/
theorem C5_counterexample :
    ((Lapper.empty.insert ⟨0, 1, 5⟩).insert ⟨0, 1, 5⟩).intervals = [⟨0, 1, 5⟩]
      ∧ ((Lapper.empty.insert ⟨0, 1, 5⟩).insert ⟨0, 1, 5⟩).root.inorder
          = [⟨0, 1, 5⟩, ⟨0, 1, 5⟩]
      ∧ ((Lapper.empty.insert ⟨0, 1, 5⟩).insert ⟨0, 1, 5⟩).root.inorder
          ≠ ((Lapper.empty.insert ⟨0, 1, 5⟩).insert ⟨0, 1, 5⟩).intervals := by
  refine ⟨by decide, by decide, by decide⟩

/-- C5, amended: inserting an interval equal on all three fields to one
already stored leaves the sorted set unchanged but appends a duplicate node
to the tree (the in-order traversal grows by one element); after any
sequence of inserts and removes in which no insert duplicates an interval
stored at that moment, the sorted-set contents and the tree's in-order
traversal are identical sequences. -/
theorem C5_amended (L : Lapper) (h : L.WF) :
    (∀ e ∈ L.intervals, (L.insert e).intervals = L.intervals
      ∧ ((L.insert e).root.inorder).length = L.root.inorder.length + 1)
    ∧ (∀ ops : List LapOp, FreshOps L ops →
        (applyOps L ops).root.inorder = (applyOps L ops).intervals) := by
  obtain ⟨hio, hst, hmx⟩ := h
  constructor
  · intro e hmem
    constructor
    · show setInsert L.intervals e = L.intervals
      exact setInsert_of_mem hst hmem
    · show (L.root.insert e).inorder.length = _
      rw [NTree.inorder_insert (by rw [hio]; exact sortedLt_sortedW hst) e,
        length_insR]
  · intro ops hf
    exact (WF_applyOps ⟨hio, hst, hmx⟩ hf).1

/-- Witness for C5 (amended) at a concrete index and operation sequence. -/
theorem C5_amended_witness :
    ((Lapper.empty.insert ⟨0, 5, 1⟩).insert ⟨0, 5, 1⟩).intervals
        = (Lapper.empty.insert ⟨0, 5, 1⟩).intervals
      ∧ (applyOps (Lapper.empty.insert ⟨0, 5, 1⟩)
          [.ins ⟨3, 9, 2⟩, .rem ⟨0, 5, 1⟩]).root.inorder
        = (applyOps (Lapper.empty.insert ⟨0, 5, 1⟩)
          [.ins ⟨3, 9, 2⟩, .rem ⟨0, 5, 1⟩]).intervals := by
  have h := C5_amended (Lapper.empty.insert ⟨0, 5, 1⟩) (by decide)
  exact ⟨(h.1 ⟨0, 5, 1⟩ (by decide)).1, h.2 _ (by decide)⟩

/-- C8, counterexample: when an interval equal to `iv` is already present,
`remove(insert(L, iv), iv)` does NOT restore `L`: the duplicate tree node
makes the removal delete the set entry, leaving the sorted set empty where
`L`'s sorted set held `iv`. -/
theorem C8_counterexample :
    (((Lapper.empty.insert ⟨0, 1, 5⟩).insert ⟨0, 1, 5⟩).remove ⟨0, 1, 5⟩).1.intervals = []
      ∧ (Lapper.empty.insert ⟨0, 1, 5⟩).intervals = [⟨0, 1, 5⟩] := by
  refine ⟨by decide, by decide⟩

/-- C8, amended: for a well-formed `Lapper` `L` and an interval `iv` not
already present, removing `iv` immediately after inserting it restores `L`
exactly: the sorted set and the tree's in-order traversal are unchanged (so
in particular the interval multiset is), and the removal reports success. -/
theorem C8_amended (L : Lapper) (e : Interval) (h : L.WF) (hm : e ∉ L.intervals) :
    ((L.insert e).remove e).1.intervals = L.intervals
      ∧ ((L.insert e).remove e).1.root.inorder = L.root.inorder
      ∧ ((L.insert e).remove e).2 = true := by
  obtain ⟨hwf', hins⟩ := Lapper.insert_WF h hm
  have hmem : e ∈ (L.insert e).intervals := by
    rw [hins]
    exact mem_insR.mpr (Or.inl rfl)
  obtain ⟨hwf'', hset, hfl⟩ := Lapper.remove_spec hwf' e
  have h1 : ((L.insert e).remove e).1.intervals = L.intervals := by
    rw [hset, hins, setRemove_insR hm]
  refine ⟨h1, ?_, hfl.mpr hmem⟩
  rw [hwf''.1, h1, h.1]

/-- Witness for C8 (amended) at a concrete index and interval. -/
theorem C8_amended_witness :
    (((Lapper.empty.insert ⟨0, 5, 1⟩).insert ⟨3, 9, 2⟩).remove ⟨3, 9, 2⟩).1.intervals
        = (Lapper.empty.insert ⟨0, 5, 1⟩).intervals
      ∧ (((Lapper.empty.insert ⟨0, 5, 1⟩).insert ⟨3, 9, 2⟩).remove ⟨3, 9, 2⟩).2 = true := by
  have h := C8_amended (Lapper.empty.insert ⟨0, 5, 1⟩) ⟨3, 9, 2⟩ (by decide) (by decide)
  exact ⟨h.1, h.2.2⟩

/-!
### The schedule manager (manager.rs)

`HashMap`s become association lists (`lookupN`/`insertN`/`removeN`), the two
`BTreeMap` indices keep their keys sorted ascending (`insertSortedN`) so the
`range(..)` iterations have the same contents, and `HashSet<ScheduleId>`
becomes a duplicate-free `List Nat` (`addId`, `List.erase`). `Uuid` ids are
`Nat`, `DateTime<Utc>` is `Int`, `u32` levels are `Nat`.
-/

/-- Mirrors `Schedule` (manager.rs). `end_` is the Rust field `end` (a Lean
keyword). -/
structure Schedule where
  start : Int
  end_ : Int
  level : Nat
  exclusive : Bool
  name : String
deriving DecidableEq, Repr

/-- Mirrors `ScheduleError` (manager.rs). -/
inductive ScheduleError where
  | StartAfterEnd
  | LevelExceedsParent
  | TimeRangeExceedsParent
  | ParentNotFound
  | TimeRangeOverlaps
  | ScheduleNotFound
  | DuplicateId
deriving DecidableEq, Repr

/-- Association-list lookup (`HashMap::get` / `BTreeMap::get`). -/
def lookupN {α : Type} : List (Nat × α) → Nat → Option α
  | [], _ => none
  | (k, v) :: rest, key => if k = key then some v else lookupN rest key

/-- Association-list insert-or-replace (`HashMap::insert`). -/
def insertN {α : Type} : List (Nat × α) → Nat → α → List (Nat × α)
  | [], k, v => [(k, v)]
  | (k', v') :: rest, k, v =>
    if k' = k then (k, v) :: rest else (k', v') :: insertN rest k v

/-- Association-list removal (`HashMap::remove` / `BTreeMap::remove`). -/
def removeN {α : Type} : List (Nat × α) → Nat → List (Nat × α)
  | [], _ => []
  | (k', v') :: rest, k =>
    if k' = k then rest else (k', v') :: removeN rest k

/-- Key-sorted insert-or-replace, keeping `BTreeMap` iteration order. -/
def insertSortedN {α : Type} : List (Nat × α) → Nat → α → List (Nat × α)
  | [], k, v => [(k, v)]
  | (k', v') :: rest, k, v =>
    if k < k' then (k, v) :: (k', v') :: rest
    else if k = k' then (k, v) :: rest
    else (k', v') :: insertSortedN rest k v

/-- `map.entry(k).or_insert_with(d)` followed by a mutation `f` of the entry,
on a `HashMap`. -/
def updateD {α : Type} (m : List (Nat × α)) (k : Nat) (d : α) (f : α → α) :
    List (Nat × α) :=
  match lookupN m k with
  | some v => insertN m k (f v)
  | none => insertN m k (f d)

/-- `map.entry(k).or_insert_with(d)` followed by a mutation `f` of the entry,
on a `BTreeMap` (key-sorted). -/
def updateSortedD {α : Type} (m : List (Nat × α)) (k : Nat) (d : α) (f : α → α) :
    List (Nat × α) :=
  match lookupN m k with
  | some v => insertSortedN m k (f v)
  | none => insertSortedN m k (f d)

/-- `HashSet::insert` on the duplicate-free list model. -/
def addId (s : List Nat) (x : Nat) : List Nat :=
  if x ∈ s then s else s ++ [x]

/-- `HashSet::extend` (used for `removed.extend(..)` and the parent merge). -/
def extendIds (s : List Nat) (xs : List Nat) : List Nat :=
  xs.foldl addId s

/-- Mirrors `ScheduleManager` (manager.rs). -/
structure Manager where
  schedules : List (Nat × Schedule)
  exclusive_index : List (Nat × Lapper)
  all_index : List (Nat × Lapper)
  parent_relations : List (Nat × List Nat)
  child_relations : List (Nat × List Nat)
  level_index : List (Nat × List Nat)

/-- `ScheduleManager::new()`: all maps empty. -/
def Manager.empty : Manager := ⟨[], [], [], [], [], []⟩

/-- The parent-validation loop of `validate_schedule`: existence, strict
level dominance (`parent.level >= schedule.level` is an error) and time
containment (`parent.start > schedule.start || parent.end < schedule.end`
is an error), first failure wins. -/
def Manager.validateParentsLoop (m : Manager) (s : Schedule) : List Nat → Option ScheduleError
  | [] => none
  | pid :: rest =>
    match lookupN m.schedules pid with
    | some parent =>
      if parent.level ≥ s.level then some .LevelExceedsParent
      else if parent.start > s.start || parent.end_ < s.end_ then some .TimeRangeExceedsParent
      else m.validateParentsLoop s rest
    | none => some .ParentNotFound

/-- Whether some lapper in `idx` yields an overlapping interval for
`[s.start, s.end)` whose id is not in `parents` — the body of the two
exclusivity loops of `validate_schedule`. -/
def anyOverlapViolation (idx : List (Nat × Lapper)) (s : Schedule) (parents : List Nat) : Bool :=
  idx.any (fun ent => ((ent.2).find s.start s.end_).any (fun iv => !(parents.contains iv.val)))

/-- `self.exclusive_index.range(..=schedule.level).rev()`: the exclusive
index entries at levels `≤ lv`, in descending key order. -/
def Manager.exclusiveLE (m : Manager) (lv : Nat) : List (Nat × Lapper) :=
  (m.exclusive_index.filter (fun ent => ent.1 ≤ lv)).reverse

/-- `self.all_index.range(schedule.level..)`: the all-index entries at levels
`≥ lv`. -/
def Manager.allGE (m : Manager) (lv : Nat) : List (Nat × Lapper) :=
  m.all_index.filter (fun ent => lv ≤ ent.1)

/-- Mirrors `ScheduleManager::validate_schedule`: range check, then the
parent loop, then inbound exclusivity (levels `≤ schedule.level` of
`exclusive_index`), then outbound exclusivity (levels `≥ schedule.level` of
`all_index`, only when the schedule is exclusive). `none` means valid. -/
def Manager.validateSchedule (m : Manager) (s : Schedule) (parents : List Nat) :
    Option ScheduleError :=
  if s.start ≥ s.end_ then some .StartAfterEnd
  else
    match m.validateParentsLoop s parents with
    | some e => some e
    | none =>
      if anyOverlapViolation (m.exclusiveLE s.level) s parents then some .TimeRangeOverlaps
      else if s.exclusive && anyOverlapViolation (m.allGE s.level) s parents then
        some .TimeRangeOverlaps
      else none

/-- Mirrors `ScheduleManager::execute_create_transaction`: insert the
interval into `exclusive_index` (when exclusive) and `all_index`, add the id
to each parent's `children` set, replace the id's `parents` entry with the
supplied set, store the schedule, and add the id to `level_index`. -/
def Manager.executeCreateTransaction (m : Manager) (sid : Nat) (s : Schedule)
    (parents : List Nat) : Manager :=
  { schedules := insertN m.schedules sid s
    exclusive_index :=
      if s.exclusive then
        updateSortedD m.exclusive_index s.level Lapper.empty
          (fun lap => lap.insert ⟨s.start, s.end_, sid⟩)
      else m.exclusive_index
    all_index :=
      updateSortedD m.all_index s.level Lapper.empty
        (fun lap => lap.insert ⟨s.start, s.end_, sid⟩)
    parent_relations := insertN m.parent_relations sid parents
    child_relations :=
      parents.foldl (fun cr p => updateD cr p [] (fun st => addId st sid))
        m.child_relations
    level_index := updateD m.level_index s.level [] (fun st => addId st sid) }

/-- Mirrors `ScheduleManager::generate_unique_id`: try the candidate stream
(16 attempts in Rust; the stream of `Uuid::now_v7()` draws is a parameter of
the model) and return the first not already stored. -/
def Manager.generateUniqueId (m : Manager) (gen : List Nat) : Option Nat :=
  (gen.take 16).find? (fun c => (lookupN m.schedules c).isNone)

/-- Mirrors `ScheduleManager::create_schedule`. The nondeterministic
`Uuid::now_v7()` draws are modelled by the `gen` stream. Errors leave the
state exactly as received, like the `&mut self` receiver does. -/
def Manager.createSchedule (m : Manager) (s : Schedule) (parents : List Nat)
    (gen : List Nat) : Except ScheduleError Nat × Manager :=
  match m.validateSchedule s parents with
  | some e => (.error e, m)
  | none =>
    match m.generateUniqueId gen with
    | none => (.error .DuplicateId, m)
    | some sid => (.ok sid, m.executeCreateTransaction sid s parents)

/-- Mirrors `ScheduleManager::create_schedule_with_id`: the duplicate-id
check precedes validation. -/
def Manager.createScheduleWithId (m : Manager) (sid : Nat) (s : Schedule)
    (parents : List Nat) : Except ScheduleError Nat × Manager :=
  if (lookupN m.schedules sid).isSome then (.error .DuplicateId, m)
  else
    match m.validateSchedule s parents with
    | some e => (.error e, m)
    | none => (.ok sid, m.executeCreateTransaction sid s parents)

/-- Mirrors `ScheduleManager::add_parents`: the stored schedule is
revalidated against the SUPPLIED parent set only; on success the id is added
to each supplied parent's `children` set and the supplied set is merged
(extend) into the id's `parents` entry. -/
def Manager.addParents (m : Manager) (sid : Nat) (parents : List Nat) :
    Except ScheduleError Unit × Manager :=
  match lookupN m.schedules sid with
  | none => (.error .ScheduleNotFound, m)
  | some s =>
    match m.validateSchedule s parents with
    | some e => (.error e, m)
    | none =>
      (.ok (),
        { m with
          child_relations :=
            parents.foldl (fun cr p => updateD cr p [] (fun st => addId st sid))
              m.child_relations
          parent_relations :=
            match lookupN m.parent_relations sid with
            | some old => insertN m.parent_relations sid (extendIds old parents)
            | none => insertN m.parent_relations sid parents })

/-- `ScheduleManager::get_schedule`. -/
def Manager.getSchedule (m : Manager) (sid : Nat) : Option Schedule :=
  lookupN m.schedules sid

/-- The index-removal prefix of `delete_schedule`: remove the schedule's
interval from `exclusive_index[level]` (when exclusive) and
`all_index[level]`. A missing level entry panics in Rust (`expect`); the
model leaves the index unchanged there (unreachable under the manager's
invariants). -/
def Manager.deleteFromIndices (m : Manager) (sid : Nat) (s : Schedule) : Manager :=
  { m with
    exclusive_index :=
      if s.exclusive then
        match lookupN m.exclusive_index s.level with
        | some lap => insertSortedN m.exclusive_index s.level
            ((lap.remove ⟨s.start, s.end_, sid⟩).1)
        | none => m.exclusive_index
      else m.exclusive_index
    all_index :=
      match lookupN m.all_index s.level with
      | some lap => insertSortedN m.all_index s.level
          ((lap.remove ⟨s.start, s.end_, sid⟩).1)
      | none => m.all_index }

/-- The suffix of `delete_schedule` after the cascade loop: drop the id's
`parents` entry, remove the id from `level_index[level]` (dropping the level
slot when it empties), remove the schedule record, and add the id to the
returned set. -/
def Manager.finishDelete (m : Manager) (sid : Nat) (s : Schedule) (removed : List Nat) :
    Except ScheduleError (List Nat) × Manager :=
  (.ok (addId removed sid),
    { m with
      parent_relations := removeN m.parent_relations sid
      level_index :=
        match lookupN m.level_index s.level with
        | some st =>
          if (st.erase sid).isEmpty then removeN m.level_index s.level
          else insertN m.level_index s.level (st.erase sid)
        | none => m.level_index
      schedules := removeN m.schedules sid })

/-- The cascade loop of `delete_schedule`, parameterized by the recursive
delete (`delf`, instantiated with the one-less-fuel `deleteAux`): for each
child, remove the deleted id from the child's `parents` entry; when that
entry becomes empty, recursively delete the child and union its removed set
into the accumulator. Errors of the recursive call propagate immediately
(`?`), keeping the partially mutated state. -/
def deleteChildrenGo
    (delf : Manager → Nat → Option (Except ScheduleError (List Nat) × Manager)) :
    Manager → Nat → List Nat → List Nat →
    Option (Except ScheduleError (List Nat) × Manager)
  | m, _, [], removed => some (.ok removed, m)
  | m, sid, child :: rest, removed =>
    match lookupN m.parent_relations child with
    | none => deleteChildrenGo delf m sid rest removed
    | some ps =>
      if (ps.erase sid).isEmpty then
        match delf { m with parent_relations := insertN m.parent_relations child (ps.erase sid) }
            child with
        | none => none
        | some (.error e, m2) => some (.error e, m2)
        | some (.ok cr, m2) => deleteChildrenGo delf m2 sid rest (extendIds removed cr)
      else
        deleteChildrenGo delf { m with parent_relations := insertN m.parent_relations child (ps.erase sid) }
          sid rest removed

/-- Mirrors `ScheduleManager::delete_schedule`, with explicit fuel for the
cascade recursion (`none` = fuel exhausted; the canonical `Manager.delete`
supplies enough fuel for every state the claims quantify over). -/
def Manager.deleteAux : Nat → Manager → Nat → Option (Except ScheduleError (List Nat) × Manager)
  | 0, _, _ => none
  | Nat.succ fuel, m, sid =>
    match lookupN m.schedules sid with
    | none => some (.error .ScheduleNotFound, m)
    | some s =>
      match lookupN (m.deleteFromIndices sid s).child_relations sid with
      | none => some ((m.deleteFromIndices sid s).finishDelete sid s [])
      | some kids =>
        match deleteChildrenGo (fun m2 c => Manager.deleteAux fuel m2 c)
            { m.deleteFromIndices sid s with
              child_relations := removeN (m.deleteFromIndices sid s).child_relations sid }
            sid kids [] with
        | none => none
        | some (.error e, m2) => some (.error e, m2)
        | some (.ok removed, m2) => some (m2.finishDelete sid s removed)

/-- `delete_schedule` with the canonical fuel (one more than the number of
`children` entries: every recursive call consumes the callee's entry). The
fuel-exhaustion branch returns the state unchanged; it is unreachable for
the manager's reachable states. -/
def Manager.delete (m : Manager) (sid : Nat) : Except ScheduleError (List Nat) × Manager :=
  match Manager.deleteAux (m.child_relations.length + 1) m sid with
  | some r => r
  | none => (.error .ScheduleNotFound, m)

/-- Mirrors `QueryOptions` (manager.rs); the custom `matcher` is an
in-process predicate. -/
structure QueryOptions where
  name : Option String := none
  start : Option Int := none
  stop : Option Int := none
  level : Option Nat := none
  exclusive : Option Bool := none
  matcher : Option (Schedule → Bool) := none

/-- The ids appearing in any `exclusive_index` lapper (computed on demand by
`query_schedule` for the `exclusive` filter). -/
def Manager.exclIds (m : Manager) : List Nat :=
  m.exclusive_index.foldl
    (fun acc ent => (ent.2).intervals.foldl (fun acc2 iv => addId acc2 iv.val) acc) []

/-- All stored schedule ids (`self.schedules.keys()`). -/
def Manager.scheduleKeys (m : Manager) : List Nat :=
  m.schedules.map (fun ent => ent.1)

/-- The `exclusive`-filter step of the query planner: intersect with the
exclusive-id set when `exclusive = true` (seeding from it when unseeded),
subtract it when `exclusive = false` (seeding from all ids minus it when
unseeded). -/
def Manager.applyExclusiveFilter (m : Manager) (excl : Option Bool)
    (cand : Option (List Nat)) : Option (List Nat) :=
  match excl with
  | none => cand
  | some true =>
    match cand with
    | some c => some (c.filter (fun sid => (m.exclIds).contains sid))
    | none => some m.exclIds
  | some false =>
    match cand with
    | some c => some (c.filter (fun sid => !(m.exclIds).contains sid))
    | none => some ((m.scheduleKeys).filter (fun sid => !(m.exclIds).contains sid))

/-- Whether `p` is a prefix of `l` (helper for the substring test). -/
def charPrefix : List Char → List Char → Bool
  | [], _ => true
  | _ :: _, [] => false
  | a :: as, b :: bs => a = b && charPrefix as bs

/-- Rust `str::contains(&str)`: contiguous-substring containment, used for
the `name` filter of `query_schedule`. -/
def strContains : List Char → List Char → Bool
  | hay, needle =>
    if charPrefix needle hay then true
    else
      match hay with
      | [] => false
      | _ :: rest => strContains rest needle

/-- The time-window test of `query_schedule`: with both bounds, interval
overlap; with only `start`, skip when `schedule.end <= s`; with only `stop`,
skip when `schedule.start >= e`; with neither, accept. -/
def timeOk (opts : QueryOptions) (s : Schedule) : Bool :=
  match opts.start, opts.stop with
  | some qs, some qe => s.start < qe && s.end_ > qs
  | some qs, none => !(s.end_ ≤ qs)
  | none, some qe => !(s.start ≥ qe)
  | none, none => true

/-- The per-candidate filter suffix of `query_schedule`: fetch the schedule,
then apply the name-substring, time-window and matcher filters. -/
def Manager.queryCollect (m : Manager) (opts : QueryOptions) (base : List Nat) :
    List (Nat × Schedule) :=
  base.filterMap (fun sid =>
    match lookupN m.schedules sid with
    | none => none
    | some s =>
      if (match opts.name with
          | some nf => strContains s.name.data nf.data
          | none => true)
          && timeOk opts s
          && (match opts.matcher with
              | some f => f s
              | none => true) then
        some (sid, s)
      else none)

/-- Mirrors `ScheduleManager::query_schedule`: seed candidates from
`level_index` when `level` is set (returning empty immediately when the
level is absent), apply the `exclusive` filter, fall back to all ids, then
apply the remaining per-schedule filters. -/
def Manager.querySchedule (m : Manager) (opts : QueryOptions) : List (Nat × Schedule) :=
  match opts.level with
  | some lv =>
    match lookupN m.level_index lv with
    | none => []
    | some seed =>
      m.queryCollect opts
        (match m.applyExclusiveFilter opts.exclusive (some seed) with
          | some c => c
          | none => m.scheduleKeys)
  | none =>
    m.queryCollect opts
      (match m.applyExclusiveFilter opts.exclusive none with
        | some c => c
        | none => m.scheduleKeys)

/-- The states reachable from the empty manager by the four mutating
operations (errors leave the state unchanged, so every call's resulting
state is reachable whatever the outcome). The supplied parent sets are
`HashSet<ScheduleId>` in Rust, hence the duplicate-free side conditions. -/
inductive Reachable : Manager → Prop where
  | empty : Reachable Manager.empty
  | create {m : Manager} (s : Schedule) (parents gen : List Nat) :
      parents.Nodup → Reachable m → Reachable (m.createSchedule s parents gen).2
  | createWithId {m : Manager} (sid : Nat) (s : Schedule) (parents : List Nat) :
      parents.Nodup → Reachable m → Reachable (m.createScheduleWithId sid s parents).2
  | addPar {m : Manager} (sid : Nat) (parents : List Nat) :
      parents.Nodup → Reachable m → Reachable (m.addParents sid parents).2
  | del {m : Manager} (sid : Nat) :
      Reachable m → Reachable (m.delete sid).2

/-!
### Map and set toolkit lemmas
-/

/-- The id set stored under `k`, empty when there is no entry. -/
def relGet (rel : List (Nat × List Nat)) (k : Nat) : List Nat :=
  (lookupN rel k).getD []

theorem lookupN_mem {α : Type} {m : List (Nat × α)} {k : Nat} {v : α}
    (h : lookupN m k = some v) : (k, v) ∈ m := by
  induction m with
  | nil => cases h
  | cons ent rest ih =>
    obtain ⟨k', v'⟩ := ent
    simp only [lookupN] at h
    split_ifs at h with hk
    · cases h
      subst hk
      exact List.mem_cons_self _ _
    · exact List.mem_cons_of_mem _ (ih h)

theorem lookupN_insertN_self {α : Type} (m : List (Nat × α)) (k : Nat) (v : α) :
    lookupN (insertN m k v) k = some v := by
  induction m with
  | nil => simp [insertN, lookupN]
  | cons ent rest ih =>
    obtain ⟨k', v'⟩ := ent
    simp only [insertN]
    split_ifs with hk
    · simp [lookupN]
    · simp only [lookupN, if_neg hk]
      exact ih

theorem lookupN_insertN_ne {α : Type} (m : List (Nat × α)) {k k' : Nat} (v : α)
    (h : k' ≠ k) : lookupN (insertN m k v) k' = lookupN m k' := by
  induction m with
  | nil =>
    simp only [insertN, lookupN]
    rw [if_neg (fun hh => h hh.symm)]
  | cons ent rest ih =>
    obtain ⟨k0, v0⟩ := ent
    simp only [insertN]
    split_ifs with hk
    · subst hk
      simp only [lookupN]
      rw [if_neg (fun hh => h hh.symm), if_neg (fun hh => h hh.symm)]
    · simp only [lookupN]
      split_ifs with h0
      · rfl
      · exact ih

theorem lookupN_removeN_ne {α : Type} (m : List (Nat × α)) {k k' : Nat}
    (h : k' ≠ k) : lookupN (removeN m k) k' = lookupN m k' := by
  induction m with
  | nil => rfl
  | cons ent rest ih =>
    obtain ⟨k0, v0⟩ := ent
    simp only [removeN]
    split_ifs with hk
    · subst hk
      simp only [lookupN]
      rw [if_neg (fun hh => h hh.symm)]
    · simp only [lookupN]
      split_ifs with h0
      · rfl
      · exact ih

/-- Keys of an association list are pairwise distinct (every map the manager
builds satisfies this). -/
def NodupKeys {α : Type} (m : List (Nat × α)) : Prop :=
  (m.map Prod.fst).Nodup

theorem lookupN_removeN_self {α : Type} {m : List (Nat × α)} (hn : NodupKeys m)
    (k : Nat) : lookupN (removeN m k) k = none := by
  induction m with
  | nil => rfl
  | cons ent rest ih =>
    obtain ⟨k0, v0⟩ := ent
    unfold NodupKeys at hn
    rw [List.map_cons, List.nodup_cons] at hn
    obtain ⟨hk0, hrest⟩ := hn
    simp only [removeN]
    split_ifs with hk
    · subst hk
      cases hl : lookupN rest k0 with
      | none => rfl
      | some v =>
        exfalso
        exact hk0 (List.mem_map.mpr ⟨(k0, v), lookupN_mem hl, rfl⟩)
    · simp only [lookupN, if_neg hk]
      exact ih hrest

theorem keys_insertN {α : Type} (m : List (Nat × α)) (k : Nat) (v : α) :
    (insertN m k v).map Prod.fst =
      if k ∈ m.map Prod.fst then m.map Prod.fst else m.map Prod.fst ++ [k] := by
  induction m with
  | nil => simp [insertN]
  | cons ent rest ih =>
    obtain ⟨k0, v0⟩ := ent
    by_cases hk : k0 = k
    · subst hk
      rw [show insertN ((k0, v0) :: rest) k0 v = (k0, v) :: rest from by
        simp [insertN]]
      rw [if_pos (by simp)]
      simp
    · rw [show insertN ((k0, v0) :: rest) k v = (k0, v0) :: insertN rest k v from by
        simp [insertN, hk]]
      rw [List.map_cons, ih, List.map_cons]
      by_cases hmem : k ∈ rest.map Prod.fst
      · rw [if_pos hmem, if_pos (List.mem_cons.mpr (Or.inr hmem))]
      · rw [if_neg hmem, if_neg (by
          rw [List.mem_cons]
          push_neg
          exact ⟨fun hh => hk hh.symm, hmem⟩)]
        simp

theorem NodupKeys_insertN {α : Type} {m : List (Nat × α)} (hn : NodupKeys m)
    (k : Nat) (v : α) : NodupKeys (insertN m k v) := by
  unfold NodupKeys
  rw [keys_insertN]
  split_ifs with hk
  · exact hn
  · refine List.Nodup.append hn (List.nodup_singleton k) ?_
    intro x hx hy
    rw [List.mem_singleton] at hy
    subst hy
    exact hk hx

theorem removeN_sublist {α : Type} (m : List (Nat × α)) (k : Nat) :
    (removeN m k).Sublist m := by
  induction m with
  | nil => simp [removeN]
  | cons ent rest ih =>
    obtain ⟨k0, v0⟩ := ent
    simp only [removeN]
    split_ifs
    · exact List.sublist_cons_self _ _
    · exact ih.cons₂ _

theorem NodupKeys_removeN {α : Type} {m : List (Nat × α)} (hn : NodupKeys m)
    (k : Nat) : NodupKeys (removeN m k) :=
  List.Nodup.sublist ((removeN_sublist m k).map Prod.fst) hn

theorem NodupKeys_updateD {α : Type} {m : List (Nat × α)} (hn : NodupKeys m)
    (k : Nat) (d : α) (f : α → α) : NodupKeys (updateD m k d f) := by
  unfold updateD
  cases lookupN m k
  · exact NodupKeys_insertN hn k _
  · exact NodupKeys_insertN hn k _

theorem lookupN_updateD_self {α : Type} (m : List (Nat × α)) (k : Nat) (d : α)
    (f : α → α) : lookupN (updateD m k d f) k = some (f ((lookupN m k).getD d)) := by
  unfold updateD
  cases lookupN m k
  · simp [lookupN_insertN_self]
  · simp [lookupN_insertN_self]

theorem lookupN_updateD_ne {α : Type} (m : List (Nat × α)) {k k' : Nat} (d : α)
    (f : α → α) (h : k' ≠ k) : lookupN (updateD m k d f) k' = lookupN m k' := by
  unfold updateD
  cases lookupN m k
  · exact lookupN_insertN_ne m _ h
  · exact lookupN_insertN_ne m _ h

theorem mem_addId {s : List Nat} {x y : Nat} : x ∈ addId s y ↔ x = y ∨ x ∈ s := by
  unfold addId
  split_ifs with hy
  · constructor
    · exact fun h => Or.inr h
    · rintro (rfl | h)
      · exact hy
      · exact h
  · simp [List.mem_append, or_comm]

theorem mem_extendIds {s xs : List Nat} {x : Nat} :
    x ∈ extendIds s xs ↔ x ∈ s ∨ x ∈ xs := by
  induction xs generalizing s with
  | nil => simp [extendIds]
  | cons y ys ih =>
    show x ∈ extendIds (addId s y) ys ↔ _
    rw [ih, mem_addId]
    simp [List.mem_cons]
    tauto

theorem containsNat_iff {l : List Nat} {x : Nat} : l.contains x = true ↔ x ∈ l := by
  simp

/-!
### Validation characterization
-/

theorem Lapper.find_mem_iff {L : Lapper} (h : L.WF) {qs qe : Int} {iv : Interval} :
    iv ∈ L.find qs qe ↔ iv ∈ L.intervals ∧ iv.start < qe ∧ iv.stop > qs := by
  obtain ⟨hio, hst, hmx⟩ := h
  show iv ∈ L.root.findList qs qe ↔ _
  rw [NTree.findList_eq_filter hmx, hio, List.mem_filter]
  simp [Interval.overlap, Bool.and_eq_true, decide_eq_true_eq]

theorem mem_exclusiveLE {m : Manager} {lv : Nat} {ent : Nat × Lapper} :
    ent ∈ m.exclusiveLE lv ↔ ent ∈ m.exclusive_index ∧ ent.1 ≤ lv := by
  unfold Manager.exclusiveLE
  rw [List.mem_reverse, List.mem_filter]
  simp

theorem mem_allGE {m : Manager} {lv : Nat} {ent : Nat × Lapper} :
    ent ∈ m.allGE lv ↔ ent ∈ m.all_index ∧ lv ≤ ent.1 := by
  unfold Manager.allGE
  rw [List.mem_filter]
  simp

theorem anyOverlapViolation_of {idx : List (Nat × Lapper)} {s : Schedule}
    {parents : List Nat} {ent : Nat × Lapper} {iv : Interval}
    (hent : ent ∈ idx) (hwf : (ent.2).WF) (hiv : iv ∈ (ent.2).intervals)
    (h1 : iv.start < s.end_) (h2 : iv.stop > s.start) (h3 : iv.val ∉ parents) :
    anyOverlapViolation idx s parents = true := by
  unfold anyOverlapViolation
  rw [List.any_eq_true]
  refine ⟨ent, hent, ?_⟩
  rw [List.any_eq_true]
  refine ⟨iv, ?_, ?_⟩
  · rw [Lapper.find_mem_iff hwf]
    exact ⟨hiv, h1, h2⟩
  · rw [Bool.not_eq_true']
    rw [Bool.eq_false_iff]
    intro hc
    exact h3 (containsNat_iff.mp hc)

theorem anyOverlapViolation_eq_false {idx : List (Nat × Lapper)} {s : Schedule}
    {parents : List Nat} (hwf : ∀ ent ∈ idx, (ent.2).WF)
    (h : ∀ ent ∈ idx, ∀ iv ∈ (ent.2).intervals,
      iv.start < s.end_ → iv.stop > s.start → iv.val ∈ parents) :
    anyOverlapViolation idx s parents = false := by
  rw [Bool.eq_false_iff]
  intro hany
  unfold anyOverlapViolation at hany
  rw [List.any_eq_true] at hany
  obtain ⟨ent, hent, hany2⟩ := hany
  rw [List.any_eq_true] at hany2
  obtain ⟨iv, hiv, hcond⟩ := hany2
  rw [Lapper.find_mem_iff (hwf ent hent)] at hiv
  rw [Bool.not_eq_true'] at hcond
  have := h ent hent iv hiv.1 hiv.2.1 hiv.2.2
  rw [← containsNat_iff] at this
  rw [hcond] at this
  cases this

theorem validateSchedule_range {m : Manager} {s : Schedule} {parents : List Nat}
    (h : s.start ≥ s.end_) : m.validateSchedule s parents = some .StartAfterEnd := by
  unfold Manager.validateSchedule
  rw [if_pos h]

theorem validateSchedule_loop {m : Manager} {s : Schedule} {parents : List Nat}
    {e : ScheduleError} (hr : s.start < s.end_)
    (hl : m.validateParentsLoop s parents = some e) :
    m.validateSchedule s parents = some e := by
  unfold Manager.validateSchedule
  rw [if_neg (by omega), hl]

theorem validateSchedule_inbound {m : Manager} {s : Schedule} {parents : List Nat}
    (hr : s.start < s.end_) (hl : m.validateParentsLoop s parents = none)
    (hv : anyOverlapViolation (m.exclusiveLE s.level) s parents = true) :
    m.validateSchedule s parents = some .TimeRangeOverlaps := by
  unfold Manager.validateSchedule
  rw [if_neg (by omega), hl, if_pos hv]

theorem validateSchedule_outbound {m : Manager} {s : Schedule} {parents : List Nat}
    (hr : s.start < s.end_) (hl : m.validateParentsLoop s parents = none)
    (hv : anyOverlapViolation (m.exclusiveLE s.level) s parents = false)
    (hex : s.exclusive = true)
    (ho : anyOverlapViolation (m.allGE s.level) s parents = true) :
    m.validateSchedule s parents = some .TimeRangeOverlaps := by
  unfold Manager.validateSchedule
  rw [if_neg (by omega), hl, if_neg (by rw [hv]; exact fun hh => by cases hh),
    if_pos (by rw [hex, ho]; rfl)]

theorem validateSchedule_ok {m : Manager} {s : Schedule} {parents : List Nat}
    (hr : s.start < s.end_) (hl : m.validateParentsLoop s parents = none)
    (hv : anyOverlapViolation (m.exclusiveLE s.level) s parents = false)
    (ho : s.exclusive = false ∨ anyOverlapViolation (m.allGE s.level) s parents = false) :
    m.validateSchedule s parents = none := by
  unfold Manager.validateSchedule
  rw [if_neg (by omega), hl, if_neg (by rw [hv]; exact fun hh => by cases hh),
    if_neg ?_]
  rcases ho with ho | ho <;> rw [ho] <;> simp

/-- C2: `create_schedule(S, P)` (the two earlier pipeline stages passing:
range well-formed and parent checks clean) returns `TimeRangeOverlaps`
whenever some `exclusive_index` level `L ≤ S.level` holds an interval
overlapping `[S.start, S.end)` whose id is not in `P`; when every such
overlapping interval's id is in `P` (and `S` is not itself exclusive, so the
outbound stage does not fire), creation succeeds — a child may inhabit its
exclusive parent's range. -/
theorem C2_create_inbound_exclusivity (m : Manager) (s : Schedule)
    (parents gen : List Nat)
    (hwf : ∀ ent ∈ m.exclusive_index, (ent.2).WF)
    (hrange : s.start < s.end_)
    (hparents : m.validateParentsLoop s parents = none) :
    ((∃ ent ∈ m.exclusive_index, ent.1 ≤ s.level ∧ ∃ iv ∈ (ent.2).intervals,
        iv.start < s.end_ ∧ iv.stop > s.start ∧ iv.val ∉ parents) →
      (m.createSchedule s parents gen).1 = .error .TimeRangeOverlaps)
    ∧ ((∀ ent ∈ m.exclusive_index, ent.1 ≤ s.level → ∀ iv ∈ (ent.2).intervals,
        iv.start < s.end_ → iv.stop > s.start → iv.val ∈ parents) →
      s.exclusive = false →
      ∀ sid, m.generateUniqueId gen = some sid →
        (m.createSchedule s parents gen).1 = .ok sid) := by
  constructor
  · rintro ⟨ent, hent, hlev, iv, hiv, h1, h2, h3⟩
    have hviol : anyOverlapViolation (m.exclusiveLE s.level) s parents = true :=
      anyOverlapViolation_of (mem_exclusiveLE.mpr ⟨hent, hlev⟩)
        (hwf ent hent) hiv h1 h2 h3
    have hval := validateSchedule_inbound hrange hparents hviol
    unfold Manager.createSchedule
    rw [hval]
  · intro hall hexcl sid hgen
    have hviol : anyOverlapViolation (m.exclusiveLE s.level) s parents = false := by
      refine anyOverlapViolation_eq_false ?_ ?_
      · intro ent hent
        exact hwf ent (mem_exclusiveLE.mp hent).1
      · intro ent hent iv hiv h1 h2
        obtain ⟨hent', hlev⟩ := mem_exclusiveLE.mp hent
        exact hall ent hent' hlev iv hiv h1 h2
    have hval := validateSchedule_ok hrange hparents hviol (Or.inl hexcl)
    unfold Manager.createSchedule
    rw [hval, hgen]

/-- Witness for C2 on the spec's scenario S3: exclusive parent `P` at level 1
over `[10, 14)`; an unrelated schedule overlapping it is rejected with
`TimeRangeOverlaps`, while a child naming `P` as parent is admitted. -/
theorem C2_create_inbound_exclusivity_witness :
    (((Manager.empty.createScheduleWithId 1 ⟨10, 14, 1, true, "P"⟩ []).2.createSchedule
        ⟨11, 13, 2, false, "U"⟩ [] [7]).1 = .error .TimeRangeOverlaps)
    ∧ (((Manager.empty.createScheduleWithId 1 ⟨10, 14, 1, true, "P"⟩ []).2.createSchedule
        ⟨11, 12, 2, false, "C"⟩ [1] [7]).1 = .ok 7) := by
  constructor
  · exact (C2_create_inbound_exclusivity _ ⟨11, 13, 2, false, "U"⟩ [] [7]
      (by decide) (by decide) (by decide)).1 (by decide)
  · exact (C2_create_inbound_exclusivity _ ⟨11, 12, 2, false, "C"⟩ [1] [7]
      (by decide) (by decide) (by decide)).2 (by decide) (by decide) 7 (by decide)

/-- C10: for a stored exclusive schedule (its own interval present in
`exclusive_index[level]`, as the manager's invariants guarantee), any
`add_parents` call whose supplied set omits the schedule's own id fails:
the schedule's own interval overlaps its own range and is not exempted, so
revalidation reports an error, and specifically `TimeRangeOverlaps` whenever
the supplied parents pass the existence, level and containment checks. -/
theorem C10_addParents_exclusive_never (m : Manager) (sid : Nat) (s : Schedule)
    (parents : List Nat) (lap : Lapper)
    (hs : lookupN m.schedules sid = some s)
    (_hex : s.exclusive = true)
    (hrange : s.start < s.end_)
    (hlap : lookupN m.exclusive_index s.level = some lap)
    (hlapwf : lap.WF)
    (hown : (⟨s.start, s.end_, sid⟩ : Interval) ∈ lap.intervals)
    (hsid : sid ∉ parents) :
    (∃ e, (m.addParents sid parents).1 = .error e)
    ∧ (m.validateParentsLoop s parents = none →
        (m.addParents sid parents).1 = .error .TimeRangeOverlaps) := by
  have hviol : anyOverlapViolation (m.exclusiveLE s.level) s parents = true := by
    refine anyOverlapViolation_of
      (mem_exclusiveLE.mpr ⟨lookupN_mem hlap, le_refl _⟩) hlapwf hown ?_ ?_ hsid
    · exact hrange
    · exact hrange
  constructor
  · cases hloop : m.validateParentsLoop s parents with
    | some e =>
      refine ⟨e, ?_⟩
      simp only [Manager.addParents, hs]
      rw [validateSchedule_loop hrange hloop]
    | none =>
      refine ⟨.TimeRangeOverlaps, ?_⟩
      simp only [Manager.addParents, hs]
      rw [validateSchedule_inbound hrange hloop hviol]
  · intro hloop
    simp only [Manager.addParents, hs]
    rw [validateSchedule_inbound hrange hloop hviol]

/-- Witness for C10: on scenario S3's manager, `add_parents(P, ∅)` for the
exclusive schedule `P` fails with `TimeRangeOverlaps`. -/
theorem C10_addParents_exclusive_never_witness :
    (((Manager.empty.createScheduleWithId 1 ⟨10, 14, 1, true, "P"⟩ []).2.addParents 1 []).1
      = .error .TimeRangeOverlaps) := by
  exact (C10_addParents_exclusive_never _ 1 ⟨10, 14, 1, true, "P"⟩ []
    (Lapper.empty.insert ⟨10, 14, 1⟩) (by decide) (by decide) (by decide)
    (by decide) (by decide) (by decide) (by decide)).2 (by decide)

/-- C6, counterexample: `create_schedule_with_id` checks the supplied id for
duplication BEFORE the validation pipeline, so with a duplicate id and a
degenerate range the returned error is `DuplicateId` although the first
failing check of the claimed pipeline order (range well-formedness) would
dictate `StartAfterEnd`. -/
theorem C6_counterexample :
    ((Manager.empty.createScheduleWithId 1 ⟨0, 10, 0, false, "P"⟩ []).2.createScheduleWithId
        1 ⟨5, 3, 1, false, "X"⟩ []).1 = .error .DuplicateId
      ∧ (⟨5, 3, 1, false, "X"⟩ : Schedule).start ≥ (⟨5, 3, 1, false, "X"⟩ : Schedule).end_
      ∧ (Manager.empty.createScheduleWithId 1 ⟨0, 10, 0, false, "P"⟩ []).2.validateSchedule
          ⟨5, 3, 1, false, "X"⟩ [] = some .StartAfterEnd
      ∧ ScheduleError.DuplicateId ≠ ScheduleError.StartAfterEnd := by
  refine ⟨rfl, by decide, rfl, by decide⟩

/-- C6, amended: every error of `create_schedule` and
`create_schedule_with_id` leaves the manager state exactly as it was; the
returned error is determined as follows: `create_schedule_with_id` first
fails `DuplicateId` when the supplied id already exists, then (and for
`create_schedule` from the start) the first failing check of the pipeline —
range well-formed, then the parent checks, then inbound exclusivity, then
outbound exclusivity — determines the error; `create_schedule` returns
`DuplicateId` only when validation passed and id generation failed. -/
theorem C6_amended :
    (∀ (m : Manager) (s : Schedule) (parents gen : List Nat) (e : ScheduleError),
      (m.createSchedule s parents gen).1 = .error e → (m.createSchedule s parents gen).2 = m)
    ∧ (∀ (m : Manager) (sid : Nat) (s : Schedule) (parents : List Nat) (e : ScheduleError),
      (m.createScheduleWithId sid s parents).1 = .error e →
        (m.createScheduleWithId sid s parents).2 = m)
    ∧ (∀ (m : Manager) (s : Schedule) (parents gen : List Nat) (e : ScheduleError),
      m.validateSchedule s parents = some e → (m.createSchedule s parents gen).1 = .error e)
    ∧ (∀ (m : Manager) (s : Schedule) (parents gen : List Nat),
      m.validateSchedule s parents = none → m.generateUniqueId gen = none →
        (m.createSchedule s parents gen).1 = .error .DuplicateId)
    ∧ (∀ (m : Manager) (sid : Nat) (s : Schedule) (parents : List Nat),
      (lookupN m.schedules sid).isSome = true →
        (m.createScheduleWithId sid s parents).1 = .error .DuplicateId)
    ∧ (∀ (m : Manager) (sid : Nat) (s : Schedule) (parents : List Nat) (e : ScheduleError),
      (lookupN m.schedules sid).isSome = false → m.validateSchedule s parents = some e →
        (m.createScheduleWithId sid s parents).1 = .error e)
    ∧ (∀ (m : Manager) (s : Schedule) (parents : List Nat),
      (s.start ≥ s.end_ → m.validateSchedule s parents = some .StartAfterEnd)
      ∧ (s.start < s.end_ → ∀ e, m.validateParentsLoop s parents = some e →
          m.validateSchedule s parents = some e)
      ∧ (s.start < s.end_ → m.validateParentsLoop s parents = none →
          anyOverlapViolation (m.exclusiveLE s.level) s parents = true →
          m.validateSchedule s parents = some .TimeRangeOverlaps)
      ∧ (s.start < s.end_ → m.validateParentsLoop s parents = none →
          anyOverlapViolation (m.exclusiveLE s.level) s parents = false →
          s.exclusive = true → anyOverlapViolation (m.allGE s.level) s parents = true →
          m.validateSchedule s parents = some .TimeRangeOverlaps)
      ∧ (s.start < s.end_ → m.validateParentsLoop s parents = none →
          anyOverlapViolation (m.exclusiveLE s.level) s parents = false →
          (s.exclusive = false ∨ anyOverlapViolation (m.allGE s.level) s parents = false) →
          m.validateSchedule s parents = none)) := by
  refine ⟨?_, ?_, ?_, ?_, ?_, ?_, ?_⟩
  · intro m s parents gen e herr
    unfold Manager.createSchedule at herr ⊢
    cases hv : m.validateSchedule s parents with
    | some e' => rfl
    | none =>
      cases hg : m.generateUniqueId gen with
      | none => rfl
      | some sid =>
        rw [hv, hg] at herr
        exact Except.noConfusion herr
  · intro m sid s parents e herr
    unfold Manager.createScheduleWithId at herr ⊢
    split_ifs at herr ⊢ with hdup
    · rfl
    · cases hv : m.validateSchedule s parents with
      | some e' => rfl
      | none =>
        rw [hv] at herr
        exact Except.noConfusion herr
  · intro m s parents gen e hv
    unfold Manager.createSchedule
    rw [hv]
  · intro m s parents gen hv hg
    unfold Manager.createSchedule
    rw [hv, hg]
  · intro m sid s parents hdup
    unfold Manager.createScheduleWithId
    rw [if_pos hdup]
  · intro m sid s parents e hdup hv
    unfold Manager.createScheduleWithId
    rw [if_neg (by rw [hdup]; exact fun hh => by cases hh), hv]
  · intro m s parents
    exact ⟨fun h => validateSchedule_range h,
      fun hr e hl => validateSchedule_loop hr hl,
      fun hr hl hv => validateSchedule_inbound hr hl hv,
      fun hr hl hv hex ho => validateSchedule_outbound hr hl hv hex ho,
      fun hr hl hv ho => validateSchedule_ok hr hl hv ho⟩

/-- Witness for C6 (amended): a failing create leaves a concrete manager
unchanged, and a duplicate-id create fails with `DuplicateId`. -/
theorem C6_amended_witness :
    ((Manager.empty.createScheduleWithId 1 ⟨0, 10, 0, false, "P"⟩ []).2.createSchedule
        ⟨5, 3, 1, false, "X"⟩ [] [9]).2
      = (Manager.empty.createScheduleWithId 1 ⟨0, 10, 0, false, "P"⟩ []).2
    ∧ ((Manager.empty.createScheduleWithId 1 ⟨0, 10, 0, false, "P"⟩ []).2.createScheduleWithId
        1 ⟨11, 12, 1, false, "Y"⟩ []).1 = .error .DuplicateId := by
  constructor
  · exact C6_amended.1 _ ⟨5, 3, 1, false, "X"⟩ [] [9] .StartAfterEnd rfl
  · exact C6_amended.2.2.2.2.1 _ 1 ⟨11, 12, 1, false, "Y"⟩ [] (by decide)

/-!
### `add_parents` merge lemmas
-/

theorem relGet_updateAdd (cr : List (Nat × List Nat)) (p sid k : Nat) :
    relGet (updateD cr p [] (fun st => addId st sid)) k =
      if k = p then addId (relGet cr p) sid else relGet cr k := by
  by_cases hk : k = p
  · subst hk
    unfold relGet
    rw [lookupN_updateD_self]
    simp
  · unfold relGet
    rw [lookupN_updateD_ne _ _ _ hk, if_neg hk]

theorem foldl_addChild_mono {cr : List (Nat × List Nat)} {ps : List Nat}
    {sid x k : Nat} (h : x ∈ relGet cr k) :
    x ∈ relGet (ps.foldl (fun cr p => updateD cr p [] (fun st => addId st sid)) cr) k := by
  induction ps generalizing cr with
  | nil => exact h
  | cons p rest ih =>
    refine ih ?_
    rw [relGet_updateAdd]
    split_ifs with hk
    · subst hk
      exact mem_addId.mpr (Or.inr h)
    · exact h

theorem foldl_addChild_mem (cr : List (Nat × List Nat)) {ps : List Nat}
    (sid : Nat) {p : Nat} (hp : p ∈ ps) :
    sid ∈ relGet (ps.foldl (fun cr p => updateD cr p [] (fun st => addId st sid)) cr) p := by
  induction ps generalizing cr with
  | nil => cases hp
  | cons q rest ih =>
    rcases List.mem_cons.mp hp with rfl | hp'
    · show sid ∈ relGet (rest.foldl _ (updateD cr p [] (fun st => addId st sid))) p
      refine foldl_addChild_mono ?_
      rw [relGet_updateAdd, if_pos rfl]
      exact mem_addId.mpr (Or.inl rfl)
    · exact ih _ hp'

/-- C7, counterexample: with an exclusive parent `P = 1` and its stored child
`C = 2` (so the effective parent set is `{1}`), `add_parents(2, ∅)` should
succeed per the claim — revalidation against the effective set passes, as the
third conjunct shows — but the code revalidates against the SUPPLIED set `∅`
only, so `P`'s own interval is no longer exempt and the call fails with
`TimeRangeOverlaps`. -/
theorem C7_counterexample :
    lookupN (((Manager.empty.createScheduleWithId 1 ⟨10, 14, 1, true, "P"⟩ []).2.createScheduleWithId
        2 ⟨11, 12, 2, false, "C"⟩ [1]).2).schedules 2 = some ⟨11, 12, 2, false, "C"⟩
    ∧ relGet (((Manager.empty.createScheduleWithId 1 ⟨10, 14, 1, true, "P"⟩ []).2.createScheduleWithId
        2 ⟨11, 12, 2, false, "C"⟩ [1]).2).parent_relations 2 = [1]
    ∧ (((Manager.empty.createScheduleWithId 1 ⟨10, 14, 1, true, "P"⟩ []).2.createScheduleWithId
        2 ⟨11, 12, 2, false, "C"⟩ [1]).2).validateSchedule ⟨11, 12, 2, false, "C"⟩ [1] = none
    ∧ ((((Manager.empty.createScheduleWithId 1 ⟨10, 14, 1, true, "P"⟩ []).2.createScheduleWithId
        2 ⟨11, 12, 2, false, "C"⟩ [1]).2).addParents 2 []).1 = .error .TimeRangeOverlaps := by
  refine ⟨rfl, rfl, rfl, rfl⟩

/-- C7, amended: `add_parents(id, new_parents)` on a stored schedule re-runs
the parent-and-overlap validation against the SUPPLIED set `new_parents`
only (an overlap is exempt iff the overlapping interval's id is in
`new_parents`; intervals of existing parents not re-supplied are NOT
exempt); on success it adds `id` to each supplied parent's children set and
merges `new_parents` into the schedule's parent set, leaving other parent
entries unchanged; on failure the state is unchanged. -/
theorem C7_amended (m : Manager) (sid : Nat) (ps : List Nat) (s : Schedule)
    (hs : lookupN m.schedules sid = some s) :
    ((m.addParents sid ps).1 = .ok () ↔ m.validateSchedule s ps = none)
    ∧ ((m.addParents sid ps).1 ≠ .ok () → (m.addParents sid ps).2 = m)
    ∧ (m.validateSchedule s ps = none →
        (∀ p ∈ ps, sid ∈ relGet (m.addParents sid ps).2.child_relations p)
        ∧ (∀ x, x ∈ relGet (m.addParents sid ps).2.parent_relations sid ↔
            x ∈ relGet m.parent_relations sid ∨ x ∈ ps)
        ∧ (∀ k, k ≠ sid → lookupN (m.addParents sid ps).2.parent_relations k
            = lookupN m.parent_relations k)) := by
  refine ⟨?_, ?_, ?_⟩
  · simp only [Manager.addParents, hs]
    cases hv : m.validateSchedule s ps with
    | some e =>
      constructor
      · intro hh
        cases hh
      · intro hh
        cases hh
    | none => exact iff_of_true rfl rfl
  · simp only [Manager.addParents, hs]
    cases hv : m.validateSchedule s ps with
    | some e => intro _ ; rfl
    | none => intro hne ; exact absurd rfl hne
  · intro hv
    simp only [Manager.addParents, hs, hv]
    refine ⟨?_, ?_, ?_⟩
    · intro p hp
      exact foldl_addChild_mem m.child_relations sid hp
    · intro x
      cases hold : lookupN m.parent_relations sid with
      | some old =>
        show x ∈ relGet (insertN m.parent_relations sid (extendIds old ps)) sid ↔ _
        unfold relGet
        rw [lookupN_insertN_self, hold]
        simp only [Option.getD_some]
        exact mem_extendIds
      | none =>
        show x ∈ relGet (insertN m.parent_relations sid ps) sid ↔ _
        unfold relGet
        rw [lookupN_insertN_self, hold]
        simp
    · intro k hk
      cases hold : lookupN m.parent_relations sid with
      | some old =>
        show lookupN (insertN m.parent_relations sid (extendIds old ps)) k = _
        exact lookupN_insertN_ne _ _ hk
      | none =>
        show lookupN (insertN m.parent_relations sid ps) k = _
        exact lookupN_insertN_ne _ _ hk

/-- Witness for C7 (amended) on the counterexample state: `add_parents(2, ∅)`
fails and leaves the state unchanged; `add_parents(2, {1})` succeeds and
keeps `1` in the merged parent set. -/
theorem C7_amended_witness :
    ((((Manager.empty.createScheduleWithId 1 ⟨10, 14, 1, true, "P"⟩ []).2.createScheduleWithId
        2 ⟨11, 12, 2, false, "C"⟩ [1]).2).addParents 2 []).2
      = ((Manager.empty.createScheduleWithId 1 ⟨10, 14, 1, true, "P"⟩ []).2.createScheduleWithId
        2 ⟨11, 12, 2, false, "C"⟩ [1]).2
    ∧ (1 ∈ relGet (((((Manager.empty.createScheduleWithId 1 ⟨10, 14, 1, true, "P"⟩
        []).2.createScheduleWithId 2 ⟨11, 12, 2, false, "C"⟩ [1]).2).addParents 2 [1]).2).parent_relations 2) := by
  constructor
  · exact (C7_amended _ 2 [] ⟨11, 12, 2, false, "C"⟩ (by decide)).2.1
      (by intro h ; exact Except.noConfusion h)
  · exact ((C7_amended _ 2 [1] ⟨11, 12, 2, false, "C"⟩ (by decide)).2.2 (by decide)).2.1 1
      |>.mpr (Or.inr (by decide))

/-!
### Query characterization (C9)
-/

/-- Coherence of `level_index` with `schedules`: every stored schedule's id is
in its level's index entry, and every id listed under a level is stored with
that level. Maintained by the mutating operations; stated as a bounded
(decidable) predicate. -/
def Manager.levelCoh (m : Manager) : Prop :=
  (∀ ent ∈ m.schedules, ent.1 ∈ relGet m.level_index ent.2.level)
  ∧ (∀ ent ∈ m.level_index, ∀ sid ∈ ent.2,
      (lookupN m.schedules sid).map Schedule.level = some ent.1)

/-- Coherence of `exclusive_index` with `schedules`: the ids carried by the
exclusive lappers are exactly the stored schedules with `exclusive = true`. -/
def Manager.exclCoh (m : Manager) : Prop :=
  (∀ ent ∈ m.schedules, ent.2.exclusive = true → ent.1 ∈ m.exclIds)
  ∧ (∀ sid ∈ m.exclIds, (lookupN m.schedules sid).map Schedule.exclusive = some true)

theorem mem_scheduleKeys {m : Manager} {sid : Nat} {s : Schedule}
    (hs : lookupN m.schedules sid = some s) : sid ∈ m.scheduleKeys :=
  List.mem_map_of_mem (fun ent => ent.1) (lookupN_mem hs)

instance decLevelCoh (m : Manager) : Decidable (Manager.levelCoh m) := by
  unfold Manager.levelCoh
  exact inferInstance

instance decExclCoh (m : Manager) : Decidable (Manager.exclCoh m) := by
  unfold Manager.exclCoh
  exact inferInstance

theorem exclIds_iff {m : Manager} (hex : m.exclCoh) {sid : Nat} {s : Schedule}
    (hs : lookupN m.schedules sid = some s) :
    sid ∈ m.exclIds ↔ s.exclusive = true := by
  constructor
  · intro h
    have := hex.2 sid h
    rw [hs] at this
    exact Option.some.inj this
  · intro h
    exact hex.1 (sid, s) (lookupN_mem hs) h

theorem level_mem_iff {m : Manager} (hlv : m.levelCoh) {sid : Nat} {s : Schedule}
    (hs : lookupN m.schedules sid = some s) (lv : Nat) :
    sid ∈ relGet m.level_index lv ↔ s.level = lv := by
  constructor
  · intro h
    cases hl : lookupN m.level_index lv with
    | none =>
      rw [relGet, hl] at h
      exact absurd h (List.not_mem_nil _)
    | some seed =>
      rw [relGet, hl] at h
      have := hlv.2 (lv, seed) (lookupN_mem hl) sid h
      rw [hs] at this
      exact Option.some.inj this
  · intro h
    have := hlv.1 (sid, s) (lookupN_mem hs)
    rw [h] at this
    exact this

theorem timeOk_iff {opts : QueryOptions} {s : Schedule} :
    timeOk opts s = true ↔
      (match opts.start, opts.stop with
        | some qs, some qe => s.start < qe ∧ s.end_ > qs
        | some qs, none => s.end_ > qs
        | none, some qe => s.start < qe
        | none, none => True) := by
  unfold timeOk
  cases hst : opts.start with
  | none =>
    cases hsp : opts.stop with
    | none => simp
    | some qe => simp [Int.not_le]
  | some qs =>
    cases hsp : opts.stop with
    | none => simp [Int.not_le]
    | some qe => simp [and_comm]

theorem queryCond_iff {opts : QueryOptions} {s : Schedule} :
    ((match opts.name with
        | some nf => strContains s.name.data nf.data
        | none => true)
        && timeOk opts s
        && (match opts.matcher with
            | some f => f s
            | none => true)) = true ↔
      (∀ nf, opts.name = some nf → strContains s.name.data nf.data = true)
      ∧ (∀ f, opts.matcher = some f → f s = true)
      ∧ (match opts.start, opts.stop with
          | some qs, some qe => s.start < qe ∧ s.end_ > qs
          | some qs, none => s.end_ > qs
          | none, some qe => s.start < qe
          | none, none => True) := by
  rw [Bool.and_eq_true, Bool.and_eq_true, timeOk_iff]
  cases hn : opts.name <;> cases hm : opts.matcher <;> simp <;> tauto

theorem mem_queryCollect {m : Manager} {opts : QueryOptions} {base : List Nat}
    {sid : Nat} {s : Schedule} :
    (sid, s) ∈ m.queryCollect opts base ↔
      sid ∈ base ∧ lookupN m.schedules sid = some s
      ∧ ((match opts.name with
          | some nf => strContains s.name.data nf.data
          | none => true)
          && timeOk opts s
          && (match opts.matcher with
              | some f => f s
              | none => true)) = true := by
  unfold Manager.queryCollect
  rw [List.mem_filterMap]
  constructor
  · rintro ⟨a, ha, hfa⟩
    cases hl : lookupN m.schedules a with
    | none =>
      simp only [hl] at hfa
      cases hfa
    | some s' =>
      simp only [hl] at hfa
      split_ifs at hfa with hc
      · have hp := Option.some.inj hfa
        have h1 : a = sid := congrArg Prod.fst hp
        have h2 : s' = s := congrArg Prod.snd hp
        subst h1
        subst h2
        exact ⟨ha, hl, hc⟩
  · rintro ⟨hb, hl, hc⟩
    refine ⟨sid, hb, ?_⟩
    simp only [hl]
    rw [if_pos hc]

theorem queryMemAux {m : Manager} {opts : QueryOptions} {base : List Nat}
    {sid : Nat} {s : Schedule} {A B : Prop}
    (hbase : lookupN m.schedules sid = some s → (sid ∈ base ↔ A ∧ B)) :
    ((sid, s) ∈ m.queryCollect opts base ↔
      lookupN m.schedules sid = some s
      ∧ A ∧ B
      ∧ (∀ nf, opts.name = some nf → strContains s.name.data nf.data = true)
      ∧ (∀ f, opts.matcher = some f → f s = true)
      ∧ (match opts.start, opts.stop with
          | some qs, some qe => s.start < qe ∧ s.end_ > qs
          | some qs, none => s.end_ > qs
          | none, some qe => s.start < qe
          | none, none => True)) := by
  rw [mem_queryCollect]
  constructor
  · rintro ⟨hb, hs, hc⟩
    obtain ⟨hn, hmt, htw⟩ := queryCond_iff.mp hc
    obtain ⟨h1, h2⟩ := (hbase hs).mp hb
    exact ⟨hs, h1, h2, hn, hmt, htw⟩
  · rintro ⟨hs, h1, h2, hn, hmt, htw⟩
    exact ⟨(hbase hs).mpr ⟨h1, h2⟩, hs, queryCond_iff.mpr ⟨hn, hmt, htw⟩⟩

theorem contains_eq_exclusive {m : Manager} (hex : m.exclCoh) {sid : Nat}
    {s : Schedule} (hs : lookupN m.schedules sid = some s) :
    m.exclIds.contains sid = s.exclusive := by
  have h := exclIds_iff hex hs
  rw [← containsNat_iff] at h
  cases hb : s.exclusive <;> simp_all

/-- C9: for a manager whose level and exclusivity indices cohere with the
schedules map (as the mutating operations maintain), `query_schedule` returns
empty immediately when `opts.level` is set but absent from the level index,
and otherwise a pair `(id, s)` is returned iff `s` is stored at `id` and
passes every given filter: level match, exclusivity match, name-substring,
custom matcher, and the time window (both bounds: `s.start < e ∧ s.end > b`;
only a lower bound: `s.end > b`; only an upper bound: `s.start < e`;
no bounds: always). -/
theorem C9_query_filters (m : Manager) (opts : QueryOptions)
    (hlv : m.levelCoh) (hex : m.exclCoh) :
    (∀ lv, opts.level = some lv → lookupN m.level_index lv = none →
        m.querySchedule opts = [])
    ∧ (∀ sid s, ((sid, s) ∈ m.querySchedule opts ↔
        lookupN m.schedules sid = some s
        ∧ (∀ lv, opts.level = some lv → s.level = lv)
        ∧ (∀ b, opts.exclusive = some b → s.exclusive = b)
        ∧ (∀ nf, opts.name = some nf → strContains s.name.data nf.data = true)
        ∧ (∀ f, opts.matcher = some f → f s = true)
        ∧ (match opts.start, opts.stop with
            | some qs, some qe => s.start < qe ∧ s.end_ > qs
            | some qs, none => s.end_ > qs
            | none, some qe => s.start < qe
            | none, none => True))) := by
  constructor
  · intro lv h1 h2
    simp only [Manager.querySchedule, h1, h2]
  · intro sid s
    cases hlvo : opts.level with
    | some lv =>
      simp only [Manager.querySchedule, hlvo]
      cases hseed : lookupN m.level_index lv with
      | none =>
        refine iff_of_false (List.not_mem_nil _) ?_
        rintro ⟨hs, hlev, -⟩
        have hl : s.level = lv := hlev lv rfl
        have hmem := (level_mem_iff hlv hs lv).mpr hl
        rw [relGet, hseed] at hmem
        exact absurd hmem (List.not_mem_nil _)
      | some seed =>
        have hrel : relGet m.level_index lv = seed := by rw [relGet, hseed] ; rfl
        cases hexo : opts.exclusive with
        | none =>
          simp only [Manager.applyExclusiveFilter]
          refine queryMemAux ?_
          intro hs
          have h1 : sid ∈ seed ↔ s.level = lv := by
            rw [← hrel]
            exact level_mem_iff hlv hs lv
          rw [h1]
          simp
        | some b =>
          cases b with
          | true =>
            simp only [Manager.applyExclusiveFilter]
            refine queryMemAux ?_
            intro hs
            have h1 : sid ∈ seed ↔ s.level = lv := by
              rw [← hrel]
              exact level_mem_iff hlv hs lv
            rw [List.mem_filter]
            rw [h1, contains_eq_exclusive hex hs]
            simp
          | false =>
            simp only [Manager.applyExclusiveFilter]
            refine queryMemAux ?_
            intro hs
            have h1 : sid ∈ seed ↔ s.level = lv := by
              rw [← hrel]
              exact level_mem_iff hlv hs lv
            rw [List.mem_filter]
            rw [h1, contains_eq_exclusive hex hs]
            simp
    | none =>
      simp only [Manager.querySchedule, hlvo]
      cases hexo : opts.exclusive with
      | none =>
        simp only [Manager.applyExclusiveFilter]
        refine queryMemAux ?_
        intro hs
        simp [mem_scheduleKeys hs]
      | some b =>
        cases b with
        | true =>
          simp only [Manager.applyExclusiveFilter]
          refine queryMemAux ?_
          intro hs
          rw [exclIds_iff hex hs]
          simp
        | false =>
          simp only [Manager.applyExclusiveFilter]
          refine queryMemAux ?_
          intro hs
          rw [List.mem_filter]
          rw [contains_eq_exclusive hex hs]
          simp [mem_scheduleKeys hs]

/-- Witness for C9 on scenario S3's state: both coherence hypotheses hold
concretely and a fully filtered query (level 2, non-exclusive, name "C",
window [0, 100)) returns the stored child. -/
theorem C9_query_filters_witness :
    (Manager.levelCoh ((Manager.empty.createScheduleWithId 1 ⟨10, 14, 1, true, "P"⟩
        []).2.createScheduleWithId 2 ⟨11, 12, 2, false, "C"⟩ [1]).2
      ∧ Manager.exclCoh ((Manager.empty.createScheduleWithId 1 ⟨10, 14, 1, true, "P"⟩
        []).2.createScheduleWithId 2 ⟨11, 12, 2, false, "C"⟩ [1]).2)
    ∧ (2, ⟨11, 12, 2, false, "C"⟩) ∈
        (((Manager.empty.createScheduleWithId 1 ⟨10, 14, 1, true, "P"⟩
          []).2.createScheduleWithId 2 ⟨11, 12, 2, false, "C"⟩ [1]).2).querySchedule
          ⟨some "C", some 0, some 100, some 2, some false, none⟩ := by
  refine ⟨⟨by decide, by decide⟩, ?_⟩
  refine ((C9_query_filters _ ⟨some "C", some 0, some 100, some 2, some false, none⟩
      (by decide) (by decide)).2 2 ⟨11, 12, 2, false, "C"⟩).mpr
    ⟨by decide, ?_, ?_, ?_, ?_, ?_⟩
  · intro lv h
    cases h
    rfl
  · intro b h
    cases h
    rfl
  · intro nf h
    cases h
    decide
  · intro f h
    cases h
  · exact ⟨by decide, by decide⟩

/-!
### Adjacency symmetry (C4)
-/

/-- Forward adjacency inclusion: every recorded parent link has a matching
child link. -/
def SymFwd (m : Manager) : Prop :=
  ∀ x p, p ∈ relGet m.parent_relations x → x ∈ relGet m.child_relations p

/-- Forward adjacency inclusion up to an exception relation `E`, the loop
invariant of the delete cascade (the deleted id's children links are dropped
before its child entries' parent links are). -/
def AlmostSymE (m : Manager) (E : Nat → Nat → Prop) : Prop :=
  ∀ x p, p ∈ relGet m.parent_relations x → x ∈ relGet m.child_relations p ∨ E x p

/-- Bookkeeping invariants of the three relation-bearing maps: no duplicate
keys (`HashMap`), duplicate-free parent sets (`HashSet`), and every id with a
`parents` entry has a stored schedule. -/
def RelInv (m : Manager) : Prop :=
  NodupKeys m.schedules ∧ NodupKeys m.parent_relations ∧ NodupKeys m.child_relations
  ∧ (∀ ent ∈ m.parent_relations, (ent.2 : List Nat).Nodup)
  ∧ (∀ x : Nat, (lookupN m.parent_relations x).isSome = true →
      (lookupN m.schedules x).isSome = true)

theorem mem_insertN {α : Type} {m : List (Nat × α)} {k : Nat} {v : α} {ent : Nat × α}
    (h : ent ∈ insertN m k v) : ent = (k, v) ∨ ent ∈ m := by
  induction m with
  | nil =>
    simp only [insertN] at h
    rcases List.mem_cons.mp h with h1 | h2
    · exact Or.inl h1
    · exact absurd h2 (List.not_mem_nil ent)
  | cons e rest ih =>
    obtain ⟨k', v'⟩ := e
    simp only [insertN] at h
    split_ifs at h with hk
    · rcases List.mem_cons.mp h with h1 | h2
      · exact Or.inl h1
      · exact Or.inr (List.mem_cons_of_mem _ h2)
    · rcases List.mem_cons.mp h with h1 | h2
      · exact Or.inr (h1 ▸ List.mem_cons_self _ _)
      · rcases ih h2 with h3 | h4
        · exact Or.inl h3
        · exact Or.inr (List.mem_cons_of_mem _ h4)

theorem nodup_addId {s : List Nat} (h : s.Nodup) (x : Nat) : (addId s x).Nodup := by
  unfold addId
  split_ifs with hx
  · exact h
  · refine List.Nodup.append h (List.nodup_singleton x) ?_
    intro a ha hb
    rw [List.mem_singleton] at hb
    subst hb
    exact hx ha

theorem nodup_extendIds {s : List Nat} (h : s.Nodup) (xs : List Nat) :
    (extendIds s xs).Nodup := by
  induction xs generalizing s with
  | nil => exact h
  | cons y ys ih =>
    show (extendIds (addId s y) ys).Nodup
    exact ih (nodup_addId h y)

theorem NodupKeys_foldl_addChild {cr : List (Nat × List Nat)} (h : NodupKeys cr)
    (ps : List Nat) (sid : Nat) :
    NodupKeys (ps.foldl (fun cr p => updateD cr p [] (fun st => addId st sid)) cr) := by
  induction ps generalizing cr with
  | nil => exact h
  | cons p rest ih => exact ih (NodupKeys_updateD h p [] _)

theorem ect_RelInv {m : Manager} (h : RelInv m) (sid : Nat) (s : Schedule)
    {parents : List Nat} (hnd : parents.Nodup) :
    RelInv (m.executeCreateTransaction sid s parents) := by
  obtain ⟨h1, h2, h3, h4, h5⟩ := h
  refine ⟨NodupKeys_insertN h1 sid s, NodupKeys_insertN h2 sid parents,
    NodupKeys_foldl_addChild h3 parents sid, ?_, ?_⟩
  · intro ent hent
    rcases mem_insertN hent with rfl | hm
    · exact hnd
    · exact h4 ent hm
  · intro x hx
    by_cases hxs : x = sid
    · subst hxs
      show (lookupN (insertN m.schedules x s) x).isSome = true
      rw [lookupN_insertN_self]
      rfl
    · show (lookupN (insertN m.schedules sid s) x).isSome = true
      rw [lookupN_insertN_ne m.schedules s hxs]
      apply h5 x
      have hx' : (lookupN (insertN m.parent_relations sid parents) x).isSome = true := hx
      rw [lookupN_insertN_ne m.parent_relations parents hxs] at hx'
      exact hx'

theorem ect_SymFwd {m : Manager} (hsym : SymFwd m) (sid : Nat) (s : Schedule)
    (parents : List Nat) :
    SymFwd (m.executeCreateTransaction sid s parents) := by
  intro x p hp
  show x ∈ relGet (parents.foldl (fun cr p => updateD cr p [] (fun st => addId st sid))
    m.child_relations) p
  by_cases hxs : x = sid
  · subst hxs
    have hp' : p ∈ parents := by
      have hh : relGet (insertN m.parent_relations x parents) x = parents := by
        rw [relGet, lookupN_insertN_self]
        rfl
      rw [← hh]
      exact hp
    exact foldl_addChild_mem m.child_relations x hp'
  · refine foldl_addChild_mono ?_
    apply hsym x p
    have hp' : p ∈ relGet (insertN m.parent_relations sid parents) x := hp
    rw [relGet, lookupN_insertN_ne m.parent_relations parents hxs, ← relGet] at hp'
    exact hp'

theorem createSchedule_inv {m : Manager} (h : RelInv m ∧ SymFwd m) (s : Schedule)
    {parents : List Nat} (hnd : parents.Nodup) (gen : List Nat) :
    RelInv (m.createSchedule s parents gen).2 ∧ SymFwd (m.createSchedule s parents gen).2 := by
  unfold Manager.createSchedule
  cases hv : m.validateSchedule s parents with
  | some e => exact h
  | none =>
    cases hg : m.generateUniqueId gen with
    | none => exact h
    | some sid => exact ⟨ect_RelInv h.1 sid s hnd, ect_SymFwd h.2 sid s parents⟩

theorem createScheduleWithId_inv {m : Manager} (h : RelInv m ∧ SymFwd m) (sid : Nat)
    (s : Schedule) {parents : List Nat} (hnd : parents.Nodup) :
    RelInv (m.createScheduleWithId sid s parents).2
    ∧ SymFwd (m.createScheduleWithId sid s parents).2 := by
  unfold Manager.createScheduleWithId
  split_ifs with hdup
  · exact h
  · cases hv : m.validateSchedule s parents with
    | some e => exact h
    | none => exact ⟨ect_RelInv h.1 sid s hnd, ect_SymFwd h.2 sid s parents⟩

theorem addParents_inv {m : Manager} (h : RelInv m ∧ SymFwd m) (sid : Nat)
    {parents : List Nat} (hnd : parents.Nodup) :
    RelInv (m.addParents sid parents).2 ∧ SymFwd (m.addParents sid parents).2 := by
  obtain ⟨⟨h1, h2, h3, h4, h5⟩, hsym⟩ := h
  cases hs : lookupN m.schedules sid with
  | none =>
    simp only [Manager.addParents, hs]
    exact ⟨⟨h1, h2, h3, h4, h5⟩, hsym⟩
  | some s =>
    simp only [Manager.addParents, hs]
    cases hv : m.validateSchedule s parents with
    | some e => exact ⟨⟨h1, h2, h3, h4, h5⟩, hsym⟩
    | none =>
      cases hold : lookupN m.parent_relations sid with
      | some old =>
        have holdnd : old.Nodup := h4 (sid, old) (lookupN_mem hold)
        constructor
        · refine ⟨h1, NodupKeys_insertN h2 sid _, NodupKeys_foldl_addChild h3 parents sid,
            ?_, ?_⟩
          · intro ent hent
            rcases mem_insertN hent with rfl | hm
            · exact nodup_extendIds holdnd parents
            · exact h4 ent hm
          · intro x hx
            by_cases hxs : x = sid
            · subst hxs
              show (lookupN m.schedules x).isSome = true
              rw [hs]
              rfl
            · show (lookupN m.schedules x).isSome = true
              apply h5 x
              have hx' : (lookupN (insertN m.parent_relations sid (extendIds old parents))
                  x).isSome = true := hx
              rw [lookupN_insertN_ne m.parent_relations _ hxs] at hx'
              exact hx'
        · intro x p hp
          show x ∈ relGet (parents.foldl (fun cr p => updateD cr p [] (fun st => addId st sid))
            m.child_relations) p
          by_cases hxs : x = sid
          · subst hxs
            have hp' : p ∈ extendIds old parents := by
              have hh : relGet (insertN m.parent_relations x (extendIds old parents)) x
                  = extendIds old parents := by
                rw [relGet, lookupN_insertN_self]
                rfl
              rw [← hh]
              exact hp
            rcases mem_extendIds.mp hp' with hpo | hpp
            · refine foldl_addChild_mono ?_
              apply hsym x p
              rw [relGet, hold]
              exact hpo
            · exact foldl_addChild_mem m.child_relations x hpp
          · refine foldl_addChild_mono ?_
            apply hsym x p
            have hp' : p ∈ relGet (insertN m.parent_relations sid (extendIds old parents)) x :=
              hp
            rw [relGet, lookupN_insertN_ne m.parent_relations _ hxs, ← relGet] at hp'
            exact hp'
      | none =>
        constructor
        · refine ⟨h1, NodupKeys_insertN h2 sid _, NodupKeys_foldl_addChild h3 parents sid,
            ?_, ?_⟩
          · intro ent hent
            rcases mem_insertN hent with rfl | hm
            · exact hnd
            · exact h4 ent hm
          · intro x hx
            by_cases hxs : x = sid
            · subst hxs
              show (lookupN m.schedules x).isSome = true
              rw [hs]
              rfl
            · show (lookupN m.schedules x).isSome = true
              apply h5 x
              have hx' : (lookupN (insertN m.parent_relations sid parents) x).isSome = true :=
                hx
              rw [lookupN_insertN_ne m.parent_relations parents hxs] at hx'
              exact hx'
        · intro x p hp
          show x ∈ relGet (parents.foldl (fun cr p => updateD cr p [] (fun st => addId st sid))
            m.child_relations) p
          by_cases hxs : x = sid
          · subst hxs
            have hp' : p ∈ parents := by
              have hh : relGet (insertN m.parent_relations x parents) x = parents := by
                rw [relGet, lookupN_insertN_self]
                rfl
              rw [← hh]
              exact hp
            exact foldl_addChild_mem m.child_relations x hp'
          · refine foldl_addChild_mono ?_
            apply hsym x p
            have hp' : p ∈ relGet (insertN m.parent_relations sid parents) x := hp
            rw [relGet, lookupN_insertN_ne m.parent_relations parents hxs, ← relGet] at hp'
            exact hp'

theorem finishDelete_inv {m : Manager} (hinv : RelInv m) {E : Nat → Nat → Prop}
    (hsym : AlmostSymE m E) (sid : Nat) (s : Schedule) (removed : List Nat) :
    RelInv (m.finishDelete sid s removed).2 ∧ AlmostSymE (m.finishDelete sid s removed).2 E
    ∧ (m.finishDelete sid s removed).1 = Except.ok (addId removed sid) := by
  obtain ⟨h1, h2, h3, h4, h5⟩ := hinv
  refine ⟨⟨NodupKeys_removeN h1 sid, NodupKeys_removeN h2 sid, h3, ?_, ?_⟩, ?_, rfl⟩
  · intro ent hent
    exact h4 ent ((removeN_sublist m.parent_relations sid).subset hent)
  · intro x hx
    by_cases hxs : x = sid
    · subst hxs
      have hx' : (lookupN (removeN m.parent_relations x) x).isSome = true := hx
      rw [lookupN_removeN_self h2] at hx'
      exact absurd hx' (by simp)
    · show (lookupN (removeN m.schedules sid) x).isSome = true
      rw [lookupN_removeN_ne m.schedules hxs]
      apply h5 x
      have hx' : (lookupN (removeN m.parent_relations sid) x).isSome = true := hx
      rw [lookupN_removeN_ne m.parent_relations hxs] at hx'
      exact hx'
  · intro x p hp
    by_cases hxs : x = sid
    · subst hxs
      have hp' : p ∈ relGet (removeN m.parent_relations x) x := hp
      rw [relGet, lookupN_removeN_self h2] at hp'
      exact absurd hp' (List.not_mem_nil p)
    · have hp' : p ∈ relGet (removeN m.parent_relations sid) x := hp
      rw [relGet, lookupN_removeN_ne m.parent_relations hxs, ← relGet] at hp'
      exact hsym x p hp'

theorem deleteChildrenGo_inv
    (delf : Manager → Nat → Option (Except ScheduleError (List Nat) × Manager))
    (hdelf : ∀ (mm : Manager) (c : Nat) (E : Nat → Nat → Prop)
        (r : Except ScheduleError (List Nat)) (mm2 : Manager),
        delf mm c = some (r, mm2) → RelInv mm → AlmostSymE mm E →
        RelInv mm2 ∧ AlmostSymE mm2 E
        ∧ ((lookupN mm.schedules c).isSome = true → ∃ rr, r = Except.ok rr)) :
    ∀ (rest : List Nat) (m : Manager) (sid : Nat) (removed : List Nat)
      (E : Nat → Nat → Prop) (res : Except ScheduleError (List Nat)) (m2 : Manager),
      deleteChildrenGo delf m sid rest removed = some (res, m2) →
      RelInv m →
      AlmostSymE m (fun x p => E x p ∨ (p = sid ∧ x ∈ rest)) →
      (∃ r, res = Except.ok r) ∧ RelInv m2 ∧ AlmostSymE m2 E := by
  intro rest
  induction rest with
  | nil =>
    intro m sid removed E res m2 hdc hinv hsym
    simp only [deleteChildrenGo] at hdc
    cases hdc
    refine ⟨⟨removed, rfl⟩, hinv, ?_⟩
    intro x p hp
    rcases hsym x p hp with hc | hE | ⟨-, hmem⟩
    · exact Or.inl hc
    · exact Or.inr hE
    · exact absurd hmem (List.not_mem_nil x)
  | cons child rest ih =>
    intro m sid removed E res m2 hdc hinv hsym
    simp only [deleteChildrenGo] at hdc
    cases hpc : lookupN m.parent_relations child with
    | none =>
      simp only [hpc] at hdc
      refine ih m sid removed E res m2 hdc hinv ?_
      intro x p hp
      rcases hsym x p hp with hc | hE | ⟨hps, hmem⟩
      · exact Or.inl hc
      · exact Or.inr (Or.inl hE)
      · rcases List.mem_cons.mp hmem with rfl | hmem'
        · exfalso
          have hp' : p ∈ relGet m.parent_relations x := hp
          rw [relGet, hpc] at hp'
          exact absurd hp' (List.not_mem_nil p)
        · exact Or.inr (Or.inr ⟨hps, hmem'⟩)
    | some ps =>
      simp only [hpc] at hdc
      have hpsnd : ps.Nodup := hinv.2.2.2.1 (child, ps) (lookupN_mem hpc)
      have hm'inv :
          RelInv { m with parent_relations := insertN m.parent_relations child (ps.erase sid) } := by
        obtain ⟨h1, h2, h3, h4, h5⟩ := hinv
        refine ⟨h1, NodupKeys_insertN h2 child _, h3, ?_, ?_⟩
        · intro ent hent
          rcases mem_insertN hent with rfl | hm
          · exact hpsnd.erase sid
          · exact h4 ent hm
        · intro x hx
          by_cases hxc : x = child
          · subst hxc
            show (lookupN m.schedules x).isSome = true
            apply h5 x
            rw [hpc]
            rfl
          · show (lookupN m.schedules x).isSome = true
            apply h5 x
            have hx' : (lookupN (insertN m.parent_relations child (ps.erase sid)) x).isSome
                = true := hx
            rw [lookupN_insertN_ne m.parent_relations _ hxc] at hx'
            exact hx'
      split_ifs at hdc with hemp
      · have hnil : ps.erase sid = [] := by
          cases hcc : ps.erase sid with
          | nil => rfl
          | cons a t =>
            rw [hcc] at hemp
            exact absurd hemp (by simp)
        cases hda : delf { m with parent_relations := insertN m.parent_relations child (ps.erase sid) }
            child with
        | none =>
          simp only [hda] at hdc
          exact Option.noConfusion hdc
        | some pr =>
          obtain ⟨ares, am⟩ := pr
          have hm'sym :
              AlmostSymE { m with parent_relations := insertN m.parent_relations child (ps.erase sid) }
                (fun x p => E x p ∨ (p = sid ∧ x ∈ rest)) := by
            intro x p hp
            by_cases hxc : x = child
            · subst hxc
              exfalso
              have hp' : p ∈ ps.erase sid := by
                have hh : relGet (insertN m.parent_relations x (ps.erase sid)) x
                    = ps.erase sid := by
                  rw [relGet, lookupN_insertN_self]
                  rfl
                rw [← hh]
                exact hp
              rw [hnil] at hp'
              exact absurd hp' (List.not_mem_nil p)
            · have hp' : p ∈ relGet m.parent_relations x := by
                have hh : relGet (insertN m.parent_relations child (ps.erase sid)) x
                    = relGet m.parent_relations x := by
                  rw [relGet, lookupN_insertN_ne m.parent_relations _ hxc, ← relGet]
                rw [← hh]
                exact hp
              rcases hsym x p hp' with hc | hE | ⟨hps2, hmem⟩
              · exact Or.inl hc
              · exact Or.inr (Or.inl hE)
              · rcases List.mem_cons.mp hmem with h' | h'
                · exact absurd h' hxc
                · exact Or.inr (Or.inr ⟨hps2, h'⟩)
          have haux := hdelf _ child (fun x p => E x p ∨ (p = sid ∧ x ∈ rest)) ares am hda
            hm'inv hm'sym
          cases ares with
          | error e =>
            exfalso
            have hsch : (lookupN ({ m with parent_relations := insertN m.parent_relations child (ps.erase sid) }).schedules child).isSome = true := by
              show (lookupN m.schedules child).isSome = true
              apply hinv.2.2.2.2 child
              rw [hpc]
              rfl
            obtain ⟨r, hr⟩ := haux.2.2 hsch
            exact Except.noConfusion hr
          | ok cr =>
            simp only [hda] at hdc
            exact ih am sid (extendIds removed cr) E res m2 hdc haux.1 haux.2.1
      · have hm'sym :
            AlmostSymE { m with parent_relations := insertN m.parent_relations child (ps.erase sid) }
              (fun x p => E x p ∨ (p = sid ∧ x ∈ rest)) := by
          intro x p hp
          by_cases hxc : x = child
          · subst hxc
            have hp' : p ∈ ps.erase sid := by
              have hh : relGet (insertN m.parent_relations x (ps.erase sid)) x
                  = ps.erase sid := by
                rw [relGet, lookupN_insertN_self]
                rfl
              rw [← hh]
              exact hp
            have hpmem : p ≠ sid ∧ p ∈ ps := (List.Nodup.mem_erase_iff hpsnd).mp hp'
            have hpold : p ∈ relGet m.parent_relations x := by
              rw [relGet, hpc]
              exact hpmem.2
            rcases hsym x p hpold with hc | hE | ⟨hps2, -⟩
            · exact Or.inl hc
            · exact Or.inr (Or.inl hE)
            · exact absurd hps2 hpmem.1
          · have hp' : p ∈ relGet m.parent_relations x := by
              have hh : relGet (insertN m.parent_relations child (ps.erase sid)) x
                  = relGet m.parent_relations x := by
                rw [relGet, lookupN_insertN_ne m.parent_relations _ hxc, ← relGet]
              rw [← hh]
              exact hp
            rcases hsym x p hp' with hc | hE | ⟨hps2, hmem⟩
            · exact Or.inl hc
            · exact Or.inr (Or.inl hE)
            · rcases List.mem_cons.mp hmem with h' | h'
              · exact absurd h' hxc
              · exact Or.inr (Or.inr ⟨hps2, h'⟩)
        exact ih _ sid removed E res m2 hdc hm'inv hm'sym

theorem deleteAux_inv : ∀ (fuel : Nat) (m : Manager) (sid : Nat) (E : Nat → Nat → Prop)
    (res : Except ScheduleError (List Nat)) (m2 : Manager),
    Manager.deleteAux fuel m sid = some (res, m2) → RelInv m → AlmostSymE m E →
    RelInv m2 ∧ AlmostSymE m2 E
    ∧ ((lookupN m.schedules sid).isSome = true → ∃ r, res = Except.ok r) := by
  intro fuel
  induction fuel with
  | zero =>
    intro m sid E res m2 hdel hinv hsym
    rw [show Manager.deleteAux 0 m sid = none from by simp [Manager.deleteAux]] at hdel
    exact Option.noConfusion hdel
  | succ fuel ih =>
    intro m sid E res m2 hdel hinv hsym
    simp only [Manager.deleteAux] at hdel
    cases hs : lookupN m.schedules sid with
    | none =>
      simp only [hs] at hdel
      cases hdel
      refine ⟨hinv, hsym, ?_⟩
      intro hsome
      exact absurd hsome (by simp)
    | some s =>
      simp only [hs] at hdel
      have hmd : RelInv (m.deleteFromIndices sid s) := hinv
      have hmdsym : AlmostSymE (m.deleteFromIndices sid s) E := hsym
      cases hkids : lookupN (m.deleteFromIndices sid s).child_relations sid with
      | none =>
        simp only [hkids] at hdel
        have hfin := finishDelete_inv hmd hmdsym sid s []
        have h' := Option.some.inj hdel
        have hres : ((m.deleteFromIndices sid s).finishDelete sid s []).1 = res :=
          congrArg Prod.fst h'
        have hm2 : ((m.deleteFromIndices sid s).finishDelete sid s []).2 = m2 :=
          congrArg Prod.snd h'
        refine ⟨hm2 ▸ hfin.1, hm2 ▸ hfin.2.1, fun _ => ⟨addId [] sid, ?_⟩⟩
        rw [← hres]
        exact hfin.2.2
      | some kids =>
        simp only [hkids] at hdel
        have hmcInv : RelInv { m.deleteFromIndices sid s with
            child_relations := removeN (m.deleteFromIndices sid s).child_relations sid } :=
          ⟨hinv.1, hinv.2.1, NodupKeys_removeN hinv.2.2.1 sid, hinv.2.2.2.1, hinv.2.2.2.2⟩
        have hmcSym : AlmostSymE { m.deleteFromIndices sid s with
            child_relations := removeN (m.deleteFromIndices sid s).child_relations sid }
            (fun x p => E x p ∨ (p = sid ∧ x ∈ kids)) := by
          intro x p hp
          have hp' : p ∈ relGet m.parent_relations x := hp
          rcases hsym x p hp' with hc | hE
          · by_cases hps : p = sid
            · subst hps
              refine Or.inr (Or.inr ⟨rfl, ?_⟩)
              have hk2 : lookupN m.child_relations p = some kids := hkids
              rw [relGet, hk2] at hc
              exact hc
            · left
              show x ∈ relGet (removeN m.child_relations sid) p
              rw [relGet, lookupN_removeN_ne m.child_relations hps, ← relGet]
              exact hc
          · exact Or.inr (Or.inl hE)
        cases hdc : deleteChildrenGo (fun m2 c => Manager.deleteAux fuel m2 c)
            { m.deleteFromIndices sid s with
              child_relations := removeN (m.deleteFromIndices sid s).child_relations sid }
            sid kids [] with
        | none =>
          simp only [hdc] at hdel
          exact Option.noConfusion hdel
        | some pr =>
          obtain ⟨cres, mAfter⟩ := pr
          have hgo := deleteChildrenGo_inv (fun m2 c => Manager.deleteAux fuel m2 c)
            (fun mm c E' r mm2 hh => ih mm c E' r mm2 hh) kids _ sid [] E cres mAfter hdc
            hmcInv hmcSym
          cases cres with
          | error e =>
            obtain ⟨r, hr⟩ := hgo.1
            exact Except.noConfusion hr
          | ok cr =>
            simp only [hdc] at hdel
            have hfin := finishDelete_inv hgo.2.1 hgo.2.2 sid s cr
            have h' := Option.some.inj hdel
            have hres : (mAfter.finishDelete sid s cr).1 = res := congrArg Prod.fst h'
            have hm2 : (mAfter.finishDelete sid s cr).2 = m2 := congrArg Prod.snd h'
            refine ⟨hm2 ▸ hfin.1, hm2 ▸ hfin.2.1, fun _ => ⟨addId cr sid, ?_⟩⟩
            rw [← hres]
            exact hfin.2.2

theorem delete_inv {m : Manager} (h : RelInv m ∧ SymFwd m) (sid : Nat) :
    RelInv (m.delete sid).2 ∧ SymFwd (m.delete sid).2 := by
  unfold Manager.delete
  cases hda : Manager.deleteAux (m.child_relations.length + 1) m sid with
  | none => exact h
  | some pr =>
    obtain ⟨res, m2⟩ := pr
    have haux := deleteAux_inv (m.child_relations.length + 1) m sid (fun x p => False)
      res m2 hda h.1 (fun x p hp => Or.inl (h.2 x p hp))
    exact ⟨haux.1, fun x p hp => (haux.2.1 x p hp).resolve_right (fun hf => hf)⟩

theorem reachable_inv : ∀ {m : Manager}, Reachable m → RelInv m ∧ SymFwd m := by
  intro m h
  induction h with
  | empty =>
    refine ⟨⟨List.nodup_nil, List.nodup_nil, List.nodup_nil, ?_, ?_⟩, ?_⟩
    · intro ent hent
      exact absurd hent (List.not_mem_nil ent)
    · intro x hx
      exact absurd hx (by simp [lookupN])
    · intro x p hp
      exact absurd hp (List.not_mem_nil p)
  | create s parents gen hnd _ ih => exact createSchedule_inv ih s hnd gen
  | createWithId sid s parents hnd _ ih => exact createScheduleWithId_inv ih sid s hnd
  | addPar sid parents hnd _ ih => exact addParents_inv ih sid hnd
  | del sid _ ih => exact delete_inv ih sid

/-- C4, counterexample: adjacency symmetry is NOT an invariant. From the
empty manager: create `P = 1`, create `C = 2` with parents `{1}`, then
`delete_schedule(2)`. The delete drops `2`'s `parents` entry but never
removes `2` from the surviving parent's `children` set, so the reachable
result state has `2 ∈ children[1]` while `1 ∉ parents[2]`. -/
theorem C4_counterexample :
    Reachable (((Manager.empty.createScheduleWithId 1 ⟨0, 10, 0, false, "P"⟩
        []).2.createScheduleWithId 2 ⟨2, 3, 1, false, "C"⟩ [1]).2.delete 2).2
    ∧ 2 ∈ relGet ((((Manager.empty.createScheduleWithId 1 ⟨0, 10, 0, false, "P"⟩
        []).2.createScheduleWithId 2 ⟨2, 3, 1, false, "C"⟩ [1]).2.delete 2).2).child_relations 1
    ∧ 1 ∉ relGet ((((Manager.empty.createScheduleWithId 1 ⟨0, 10, 0, false, "P"⟩
        []).2.createScheduleWithId 2 ⟨2, 3, 1, false, "C"⟩ [1]).2.delete 2).2).parent_relations 2 := by
  refine ⟨?_, by decide, by decide⟩
  exact Reachable.del 2 (Reachable.createWithId 2 ⟨2, 3, 1, false, "C"⟩ [1] (by decide)
    (Reachable.createWithId 1 ⟨0, 10, 0, false, "P"⟩ [] (by decide) Reachable.empty))

/-- C4, amended: only the forward inclusion of adjacency symmetry is an
invariant. In every state reachable by any sequence of `create_schedule`,
`create_schedule_with_id`, `add_parents` and `delete_schedule` (with
duplicate-free supplied parent sets, as `HashSet` guarantees), `p ∈
parents[id]` implies `id ∈ children[p]`; the converse fails because
`delete_schedule` leaves the deleted id in surviving parents' children
sets. -/
theorem C4_amended (m : Manager) (h : Reachable m) :
    ∀ x p, p ∈ relGet m.parent_relations x → x ∈ relGet m.child_relations p :=
  (reachable_inv h).2

/-!
### Delete-cascade characterization (C3)
-/

theorem lookupN_removeN_none {α : Type} {m : List (Nat × α)} {x : Nat}
    (h : lookupN m x = none) (k : Nat) : lookupN (removeN m k) x = none := by
  induction m with
  | nil => rfl
  | cons ent rest ih =>
    obtain ⟨k', v'⟩ := ent
    by_cases hk : k' = x
    · rw [show lookupN ((k', v') :: rest) x = some v' from by simp [lookupN, hk]] at h
      exact Option.noConfusion h
    · have h' : lookupN rest x = none := by
        rw [show lookupN ((k', v') :: rest) x = lookupN rest x from by simp [lookupN, hk]] at h
        exact h
      simp only [removeN]
      split_ifs with hk2
      · exact h'
      · simp only [lookupN]
        rw [if_neg hk]
        exact ih h'

theorem deleteAux_notFound {m : Manager} {sid : Nat} (h : lookupN m.schedules sid = none)
    (fuel : Nat) :
    Manager.deleteAux (fuel + 1) m sid = some (.error .ScheduleNotFound, m) := by
  simp only [Manager.deleteAux, h]

theorem deleteChildrenGo_sched
    (delf : Manager → Nat → Option (Except ScheduleError (List Nat) × Manager))
    (hdelf : ∀ (mm : Manager) (c : Nat) (r : Except ScheduleError (List Nat)) (mm2 : Manager),
        delf mm c = some (r, mm2) → NodupKeys mm.schedules →
        NodupKeys mm2.schedules
        ∧ (∀ x, lookupN mm.schedules x = none → lookupN mm2.schedules x = none)
        ∧ (∀ rs, r = Except.ok rs → c ∈ rs
            ∧ (∀ x ∈ rs, lookupN mm2.schedules x = none)
            ∧ (∀ x ∈ rs, (lookupN mm.schedules x).isSome = true))) :
    ∀ (rest : List Nat) (m : Manager) (sid : Nat) (removed : List Nat)
      (res : Except ScheduleError (List Nat)) (m2 : Manager),
      deleteChildrenGo delf m sid rest removed = some (res, m2) →
      NodupKeys m.schedules →
      (∀ x ∈ removed, lookupN m.schedules x = none) →
      NodupKeys m2.schedules
      ∧ (∀ x, lookupN m.schedules x = none → lookupN m2.schedules x = none)
      ∧ (∀ rs, res = Except.ok rs →
          (∀ x ∈ rs, lookupN m2.schedules x = none)
          ∧ (∀ x ∈ rs, x ∈ removed ∨ (lookupN m.schedules x).isSome = true)) := by
  intro rest
  induction rest with
  | nil =>
    intro m sid removed res m2 hdc hnd hrem
    simp only [deleteChildrenGo] at hdc
    cases hdc
    refine ⟨hnd, fun x hx => hx, ?_⟩
    intro rs hrs
    cases hrs
    exact ⟨hrem, fun x hx => Or.inl hx⟩
  | cons child rest ih =>
    intro m sid removed res m2 hdc hnd hrem
    simp only [deleteChildrenGo] at hdc
    cases hpc : lookupN m.parent_relations child with
    | none =>
      simp only [hpc] at hdc
      exact ih m sid removed res m2 hdc hnd hrem
    | some ps =>
      simp only [hpc] at hdc
      split_ifs at hdc with hemp
      · cases hda : delf { m with parent_relations := insertN m.parent_relations child (ps.erase sid) }
            child with
        | none =>
          simp only [hda] at hdc
          exact Option.noConfusion hdc
        | some pr =>
          obtain ⟨ares, am⟩ := pr
          have haux := hdelf _ child ares am hda hnd
          cases ares with
          | error e =>
            simp only [hda] at hdc
            cases hdc
            refine ⟨haux.1, haux.2.1, ?_⟩
            intro rs hrs
            exact Except.noConfusion hrs
          | ok cr =>
            simp only [hda] at hdc
            obtain ⟨hcin, hcr2, hcr1⟩ := haux.2.2 cr rfl
            have hrec := ih am sid (extendIds removed cr) res m2 hdc haux.1 ?_
            · refine ⟨hrec.1, fun x hx => hrec.2.1 x (haux.2.1 x hx), ?_⟩
              intro rs hrs
              obtain ⟨ha, hb⟩ := hrec.2.2 rs hrs
              refine ⟨ha, ?_⟩
              intro x hx
              rcases hb x hx with hx' | hx'
              · rcases mem_extendIds.mp hx' with hx'' | hx''
                · exact Or.inl hx''
                · exact Or.inr (hcr1 x hx'')
              · right
                cases hlk : lookupN m.schedules x with
                | none =>
                  rw [haux.2.1 x hlk] at hx'
                  exact absurd hx' (by simp)
                | some v => rfl
            · intro x hx
              rcases mem_extendIds.mp hx with hx' | hx'
              · exact haux.2.1 x (hrem x hx')
              · exact hcr2 x hx'
      · exact ih { m with parent_relations := insertN m.parent_relations child (ps.erase sid) }
          sid removed res m2 hdc hnd hrem

theorem deleteAux_sched : ∀ (fuel : Nat) (m : Manager) (sid : Nat)
    (res : Except ScheduleError (List Nat)) (m2 : Manager),
    Manager.deleteAux fuel m sid = some (res, m2) → NodupKeys m.schedules →
    NodupKeys m2.schedules
    ∧ (∀ x, lookupN m.schedules x = none → lookupN m2.schedules x = none)
    ∧ (∀ rs, res = Except.ok rs → sid ∈ rs
        ∧ (∀ x ∈ rs, lookupN m2.schedules x = none)
        ∧ (∀ x ∈ rs, (lookupN m.schedules x).isSome = true)) := by
  intro fuel
  induction fuel with
  | zero =>
    intro m sid res m2 hdel
    rw [show Manager.deleteAux 0 m sid = none from by simp [Manager.deleteAux]] at hdel
    exact absurd hdel (fun hh => Option.noConfusion hh)
  | succ fuel ih =>
    intro m sid res m2 hdel hnd
    simp only [Manager.deleteAux] at hdel
    cases hs : lookupN m.schedules sid with
    | none =>
      simp only [hs] at hdel
      cases hdel
      refine ⟨hnd, fun x hx => hx, ?_⟩
      intro rs hrs
      exact Except.noConfusion hrs
    | some s =>
      simp only [hs] at hdel
      cases hkids : lookupN (m.deleteFromIndices sid s).child_relations sid with
      | none =>
        simp only [hkids] at hdel
        have h' := Option.some.inj hdel
        have hres : ((m.deleteFromIndices sid s).finishDelete sid s []).1 = res :=
          congrArg Prod.fst h'
        have hm2 : ((m.deleteFromIndices sid s).finishDelete sid s []).2 = m2 :=
          congrArg Prod.snd h'
        have hm2sch : m2.schedules = removeN m.schedules sid := by
          rw [← hm2]
          rfl
        refine ⟨?_, ?_, ?_⟩
        · rw [hm2sch]
          exact NodupKeys_removeN hnd sid
        · intro x hx
          rw [hm2sch]
          exact lookupN_removeN_none hx sid
        · intro rs hrs
          have hrs' : (Except.ok (addId [] sid) : Except ScheduleError (List Nat))
              = Except.ok rs := by
            rw [← hrs, ← hres]
            rfl
          have hrseq : rs = addId [] sid := (Except.ok.inj hrs').symm
          subst hrseq
          refine ⟨mem_addId.mpr (Or.inl rfl), ?_, ?_⟩
          · intro x hx
            rcases mem_addId.mp hx with rfl | hx'
            · rw [hm2sch]
              exact lookupN_removeN_self hnd x
            · exact absurd hx' (List.not_mem_nil x)
          · intro x hx
            rcases mem_addId.mp hx with rfl | hx'
            · rw [hs]
              rfl
            · exact absurd hx' (List.not_mem_nil x)
      | some kids =>
        simp only [hkids] at hdel
        cases hdc : deleteChildrenGo (fun m2 c => Manager.deleteAux fuel m2 c)
            { m.deleteFromIndices sid s with
              child_relations := removeN (m.deleteFromIndices sid s).child_relations sid }
            sid kids [] with
        | none =>
          simp only [hdc] at hdel
          exact Option.noConfusion hdel
        | some pr =>
          obtain ⟨cres, mAfter⟩ := pr
          have hgo := deleteChildrenGo_sched (fun m2 c => Manager.deleteAux fuel m2 c)
            (fun mm c r mm2 hh hn => ih mm c r mm2 hh hn) kids _ sid [] cres mAfter hdc
            hnd (fun x hx => absurd hx (List.not_mem_nil x))
          cases cres with
          | error e =>
            simp only [hdc] at hdel
            cases hdel
            refine ⟨hgo.1, hgo.2.1, ?_⟩
            intro rs hrs
            exact Except.noConfusion hrs
          | ok cr =>
            simp only [hdc] at hdel
            have h' := Option.some.inj hdel
            have hres : (mAfter.finishDelete sid s cr).1 = res := congrArg Prod.fst h'
            have hm2 : (mAfter.finishDelete sid s cr).2 = m2 := congrArg Prod.snd h'
            have hm2sch : m2.schedules = removeN mAfter.schedules sid := by
              rw [← hm2]
              rfl
            obtain ⟨hcr2, hcr1⟩ := hgo.2.2 cr rfl
            refine ⟨?_, ?_, ?_⟩
            · rw [hm2sch]
              exact NodupKeys_removeN hgo.1 sid
            · intro x hx
              rw [hm2sch]
              exact lookupN_removeN_none (hgo.2.1 x hx) sid
            · intro rs hrs
              have hrs' : (Except.ok (addId cr sid) : Except ScheduleError (List Nat))
                  = Except.ok rs := by
                rw [← hrs, ← hres]
                rfl
              have hrseq : rs = addId cr sid := (Except.ok.inj hrs').symm
              subst hrseq
              refine ⟨mem_addId.mpr (Or.inl rfl), ?_, ?_⟩
              · intro x hx
                rcases mem_addId.mp hx with rfl | hx'
                · rw [hm2sch]
                  exact lookupN_removeN_self hgo.1 x
                · rw [hm2sch]
                  exact lookupN_removeN_none (hcr2 x hx') sid
              · intro x hx
                rcases mem_addId.mp hx with rfl | hx'
                · rw [hs]
                  rfl
                · rcases hcr1 x hx' with hx'' | hx''
                  · exact absurd hx'' (List.not_mem_nil x)
                  · exact hx''

/-- C3, counterexample: the removed set is NOT exactly the id plus its
transitively cascaded descendants. Reuse id `2` after a delete: create
`P = 1`, create `C = 2` with parents `{1}`, delete `2`, then create a fresh
parentless schedule with recycled id `2`. The stale entry `2 ∈ children[1]`
survives, so `delete_schedule(1)` cascades onto the new schedule `2` —
reporting `Ok({2, 1})` and removing `2` — although `2`'s parent set is empty
and `2` is no descendant of `1`. -/
theorem C3_counterexample :
    Reachable ((((Manager.empty.createScheduleWithId 1 ⟨0, 10, 0, false, "P"⟩ []).2.createScheduleWithId 2 ⟨2, 3, 1, false, "C"⟩ [1]).2.delete 2).2.createScheduleWithId 2 ⟨5, 6, 3, false, "C2"⟩ []).2
    ∧ relGet (((((Manager.empty.createScheduleWithId 1 ⟨0, 10, 0, false, "P"⟩ []).2.createScheduleWithId 2 ⟨2, 3, 1, false, "C"⟩ [1]).2.delete 2).2.createScheduleWithId 2 ⟨5, 6, 3, false, "C2"⟩ []).2).parent_relations 2 = []
    ∧ 2 ∈ relGet (((((Manager.empty.createScheduleWithId 1 ⟨0, 10, 0, false, "P"⟩ []).2.createScheduleWithId 2 ⟨2, 3, 1, false, "C"⟩ [1]).2.delete 2).2.createScheduleWithId 2 ⟨5, 6, 3, false, "C2"⟩ []).2).child_relations 1
    ∧ (((((Manager.empty.createScheduleWithId 1 ⟨0, 10, 0, false, "P"⟩ []).2.createScheduleWithId 2 ⟨2, 3, 1, false, "C"⟩ [1]).2.delete 2).2.createScheduleWithId 2 ⟨5, 6, 3, false, "C2"⟩ []).2.delete 1).1 = .ok [2, 1]
    ∧ Manager.getSchedule (((((Manager.empty.createScheduleWithId 1 ⟨0, 10, 0, false, "P"⟩ []).2.createScheduleWithId 2 ⟨2, 3, 1, false, "C"⟩ [1]).2.delete 2).2.createScheduleWithId 2 ⟨5, 6, 3, false, "C2"⟩ []).2.delete 1).2 2 = none := by
  refine ⟨?_, by decide, by decide, rfl, by decide⟩
  exact Reachable.createWithId 2 ⟨5, 6, 3, false, "C2"⟩ [] (by decide)
    (Reachable.del 2 (Reachable.createWithId 2 ⟨2, 3, 1, false, "C"⟩ [1] (by decide)
      (Reachable.createWithId 1 ⟨0, 10, 0, false, "P"⟩ [] (by decide) Reachable.empty)))

/-- C3, amended: on every reachable state, deleting a missing id fails with
`ScheduleNotFound` and leaves the state unchanged, every failing delete
leaves the state unchanged, and a successful `delete_schedule(id) = Ok(S)`
yields a set `S` that contains `id`, contains only ids stored at call time,
and whose members all answer `None` to `get_schedule` afterwards. `S` need
not equal the set of true descendants: stale `children` entries (id reuse
after an earlier delete) cascade onto unrelated schedules. -/
theorem C3_amended (m : Manager) (sid : Nat) (h : Reachable m) :
    (lookupN m.schedules sid = none → m.delete sid = (.error .ScheduleNotFound, m))
    ∧ (∀ e, (m.delete sid).1 = .error e → (m.delete sid).2 = m)
    ∧ (∀ r, (m.delete sid).1 = .ok r →
        sid ∈ r
        ∧ (∀ x ∈ r, (lookupN m.schedules x).isSome = true)
        ∧ (∀ x ∈ r, Manager.getSchedule (m.delete sid).2 x = none)) := by
  have hinv := (reachable_inv h).1
  have hnd : NodupKeys m.schedules := hinv.1
  refine ⟨?_, ?_, ?_⟩
  · intro hnone
    unfold Manager.delete
    rw [deleteAux_notFound hnone]
  · intro e herr
    unfold Manager.delete at herr ⊢
    cases hda : Manager.deleteAux (m.child_relations.length + 1) m sid with
    | none => rfl
    | some pr =>
      obtain ⟨res, m2⟩ := pr
      simp only [hda] at herr
      by_cases hset : (lookupN m.schedules sid).isSome = true
      · obtain ⟨r, hr⟩ := (deleteAux_inv _ m sid (fun x p => False) res m2 hda hinv
          (fun x p hp => Or.inl ((reachable_inv h).2 x p hp))).2.2 hset
        rw [herr] at hr
        exact Except.noConfusion hr
      · have hnone : lookupN m.schedules sid = none := by
          cases hlk : lookupN m.schedules sid with
          | none => rfl
          | some v =>
            rw [hlk] at hset
            exact absurd rfl hset
        rw [deleteAux_notFound hnone] at hda
        have h' := Option.some.inj hda
        have hm2 : m = m2 := congrArg Prod.snd h'
        exact hm2.symm
  · intro r hok
    unfold Manager.delete at hok ⊢
    cases hda : Manager.deleteAux (m.child_relations.length + 1) m sid with
    | none =>
      simp only [hda] at hok
      exact Except.noConfusion hok
    | some pr =>
      obtain ⟨res, m2⟩ := pr
      simp only [hda] at hok
      have hsch := deleteAux_sched _ m sid res m2 hda hnd
      obtain ⟨hr1, hr2, hr3⟩ := hsch.2.2 r hok
      refine ⟨hr1, hr3, ?_⟩
      intro x hx
      show lookupN m2.schedules x = none
      exact hr2 x hx

/-- Witness for C3 (amended) on the counterexample state: the successful
delete reports `{2, 1}` and both reported ids are gone afterwards. -/
theorem C3_amended_witness :
    Manager.getSchedule (((((Manager.empty.createScheduleWithId 1 ⟨0, 10, 0, false, "P"⟩ []).2.createScheduleWithId 2 ⟨2, 3, 1, false, "C"⟩ [1]).2.delete 2).2.createScheduleWithId 2 ⟨5, 6, 3, false, "C2"⟩ []).2.delete 1).2 2 = none
    ∧ Manager.getSchedule (((((Manager.empty.createScheduleWithId 1 ⟨0, 10, 0, false, "P"⟩ []).2.createScheduleWithId 2 ⟨2, 3, 1, false, "C"⟩ [1]).2.delete 2).2.createScheduleWithId 2 ⟨5, 6, 3, false, "C2"⟩ []).2.delete 1).2 1 = none := by
  have hstep := (C3_amended ((((Manager.empty.createScheduleWithId 1 ⟨0, 10, 0, false, "P"⟩ []).2.createScheduleWithId 2 ⟨2, 3, 1, false, "C"⟩ [1]).2.delete 2).2.createScheduleWithId 2 ⟨5, 6, 3, false, "C2"⟩ []).2 1
      (Reachable.createWithId 2 ⟨5, 6, 3, false, "C2"⟩ [] (by decide)
        (Reachable.del 2 (Reachable.createWithId 2 ⟨2, 3, 1, false, "C"⟩ [1] (by decide)
          (Reachable.createWithId 1 ⟨0, 10, 0, false, "P"⟩ [] (by decide)
            Reachable.empty))))).2.2 [2, 1] rfl
  exact ⟨hstep.2.2 2 (by decide), hstep.2.2 1 (by decide)⟩

/-- Witness for C4 (amended) on a concrete reachable state: the child's
recorded parent link is matched by the parent's child link. -/
theorem C4_amended_witness :
    1 ∈ relGet (((Manager.empty.createScheduleWithId 1 ⟨0, 10, 0, false, "P"⟩
        []).2.createScheduleWithId 2 ⟨2, 3, 1, false, "C"⟩ [1]).2).parent_relations 2
    ∧ 2 ∈ relGet (((Manager.empty.createScheduleWithId 1 ⟨0, 10, 0, false, "P"⟩
        []).2.createScheduleWithId 2 ⟨2, 3, 1, false, "C"⟩ [1]).2).child_relations 1 := by
  refine ⟨by decide, ?_⟩
  exact C4_amended _ (Reachable.createWithId 2 ⟨2, 3, 1, false, "C"⟩ [1] (by decide)
      (Reachable.createWithId 1 ⟨0, 10, 0, false, "P"⟩ [] (by decide) Reachable.empty))
    2 1 (by decide)

end USched
